import Mathlib

/-!
Verification of the ONIST optimal-ship-routing backend.

This file gives a shallow embedding of the routing core found in
`src/backend/app.py` (grid A* search, escape search for on-land endpoints,
path smoothing, haversine geometry) and `src/backend/ports.py` (nearest-port
index), and proves or refutes the specification claims about them.

Modelling conventions:
* Python floats are modelled as real numbers `ℝ`.
* `numpy` arrays indexed `arr[j, i]` are modelled as functions `ℕ → ℕ → _`
  applied as `arr j i`; the coordinate arrays `lon`, `lat` are functions
  `ℕ → ℝ` together with their lengths `W`, `H`.
* `np.inf` entries of the `g_score` dictionary are modelled with `WithTop ℝ`
  (`⊤` = infinity); `x + ⊤ = ⊤` and `⊤ < ⊤ = False` match IEEE infinities
  for the operations the code performs.
* The `heapq` priority queue is modelled as a list of `(priority, node)`
  pairs from which `minExtract` removes the entry that is minimal in the
  lexicographic tuple order that Python uses to compare `(f, (i, j))`
  tuples; on the states the algorithm actually reaches, nodes on the queue
  are pairwise distinct (a node is pushed only when absent), so the minimal
  entry is unique and this is exactly `heappop`.
* Unbounded `while` loops are given a fuel parameter; exhausting fuel yields
  `none`, so any `some` result is a result the Python code also produces.
-/

set_option maxHeartbeats 1600000

open Real

/-- A grid node `(i, j)`: longitude index and latitude index.  The source
represents nodes as Python int pairs. -/
abbrev Node := ℕ × ℕ

/-- Degrees to radians, as Python `math.radians x = x * π / 180`. -/
noncomputable def radians (x : ℝ) : ℝ := x * π / 180

/-- Two-argument arctangent, modelling Python `math.atan2 y x` (the usual
IEEE convention).  The source only ever calls it with both arguments
nonnegative square roots. -/
noncomputable def atan2 (y x : ℝ) : ℝ :=
  if 0 < x then arctan (y / x)
  else if x < 0 ∧ 0 ≤ y then arctan (y / x) + π
  else if x < 0 ∧ y < 0 then arctan (y / x) - π
  else if x = 0 ∧ 0 < y then π / 2
  else if x = 0 ∧ y < 0 then -(π / 2)
  else 0

/-- The auxiliary `a` quantity of the haversine formula shared by
`haversine` (app.py line 107) and `_haversine_km` (ports.py line 24):
`a = sin(dlat/2)**2 + cos(lat1)*cos(lat2)*sin(dlon/2)**2` in radians. -/
noncomputable def havA (lon1 lat1 lon2 lat2 : ℝ) : ℝ :=
  sin (radians (lat2 - lat1) / 2) ^ 2 +
    cos (radians lat1) * cos (radians lat2) * sin (radians (lon2 - lon1) / 2) ^ 2

/-- The `haversine` function of `src/backend/app.py` (lines 102-109):
great-circle distance in kilometres between `(lon1, lat1)` and
`(lon2, lat2)`, Earth radius `R = 6371`; the Python local variables
`dlon`, `dlat`, `a`, `c` are substituted inline (`a` as `havA`). -/
noncomputable def haversine (lon1 lat1 lon2 lat2 : ℝ) : ℝ :=
  6371 * (2 * atan2 (Real.sqrt (havA lon1 lat1 lon2 lat2))
    (Real.sqrt (1 - havA lon1 lat1 lon2 lat2)))

/-- The `_haversine_km` function of `src/backend/ports.py` (lines 18-26);
textually a different function in the source, with the same formula
(its `dphi`, `dlambda`, `a`, `c` locals substituted inline) and `R = 6371.0`. -/
noncomputable def haversine_km (lon1 lat1 lon2 lat2 : ℝ) : ℝ :=
  6371 * (2 * atan2 (Real.sqrt (havA lon1 lat1 lon2 lat2))
    (Real.sqrt (1 - havA lon1 lat1 lon2 lat2)))

theorem haversine_km_eq_haversine (lon1 lat1 lon2 lat2 : ℝ) :
    haversine_km lon1 lat1 lon2 lat2 = haversine lon1 lat1 lon2 lat2 := rfl

/-- The unit-sphere embedding built by `PortsIndex._load` (ports.py lines
52-57): `x = cos lat cos lon`, `y = cos lat sin lon`, `z = sin lat`, with
latitude/longitude first converted to radians. -/
noncomputable def sphVec (lat lon : ℝ) : ℝ × ℝ × ℝ :=
  (cos (radians lat) * cos (radians lon),
   cos (radians lat) * sin (radians lon),
   sin (radians lat))

/-- Euclidean dot product on coordinate triples. -/
noncomputable def dot3 (u v : ℝ × ℝ × ℝ) : ℝ :=
  u.1 * v.1 + u.2.1 * v.2.1 + u.2.2 * v.2.2

/-- Squared Euclidean distance on coordinate triples: the quantity whose
minimisation is equivalent to the `cKDTree` nearest-neighbour query. -/
noncomputable def sqDist3 (u v : ℝ × ℝ × ℝ) : ℝ :=
  (u.1 - v.1) ^ 2 + (u.2.1 - v.2.1) ^ 2 + (u.2.2 - v.2.2) ^ 2

theorem radians_sub (a b : ℝ) : radians (a - b) = radians a - radians b := by
  unfold radians; ring

theorem sphVec_unit (lat lon : ℝ) : dot3 (sphVec lat lon) (sphVec lat lon) = 1 := by
  simp only [sphVec, dot3]
  have h1 := sin_sq_add_cos_sq (radians lat)
  have h2 := sin_sq_add_cos_sq (radians lon)
  nlinarith [h1, h2]

theorem dot3_sphVec (lat1 lon1 lat2 lon2 : ℝ) :
    dot3 (sphVec lat1 lon1) (sphVec lat2 lon2) =
      cos (radians lat1) * cos (radians lat2) * cos (radians lon1 - radians lon2) +
        sin (radians lat1) * sin (radians lat2) := by
  simp only [sphVec, dot3]
  rw [cos_sub]
  ring

/-- Cauchy-Schwarz for coordinate triples, via the Lagrange identity. -/
theorem cauchy3 (p q : ℝ × ℝ × ℝ) : (dot3 p q) ^ 2 ≤ dot3 p p * dot3 q q := by
  simp only [dot3]
  nlinarith [sq_nonneg (p.1 * q.2.1 - p.2.1 * q.1), sq_nonneg (p.1 * q.2.2 - p.2.2 * q.1),
    sq_nonneg (p.2.1 * q.2.2 - p.2.2 * q.2.1)]

theorem dot3_le_one {u v : ℝ × ℝ × ℝ} (hu : dot3 u u = 1) (hv : dot3 v v = 1) :
    dot3 u v ≤ 1 := by
  simp only [dot3] at *
  nlinarith [sq_nonneg (u.1 - v.1), sq_nonneg (u.2.1 - v.2.1), sq_nonneg (u.2.2 - v.2.2)]

theorem neg_one_le_dot3 {u v : ℝ × ℝ × ℝ} (hu : dot3 u u = 1) (hv : dot3 v v = 1) :
    -1 ≤ dot3 u v := by
  simp only [dot3] at *
  nlinarith [sq_nonneg (u.1 + v.1), sq_nonneg (u.2.1 + v.2.1), sq_nonneg (u.2.2 + v.2.2)]

/-- The `a` quantity of the haversine formula equals `(1 - d)/2` where `d`
is the dot product of the two unit-sphere embeddings. -/
theorem hav_a_eq (lon1 lat1 lon2 lat2 : ℝ) :
    havA lon1 lat1 lon2 lat2 =
      (1 - dot3 (sphVec lat1 lon1) (sphVec lat2 lon2)) / 2 := by
  unfold havA
  rw [dot3_sphVec, radians_sub, radians_sub]
  have e1 : sin ((radians lat2 - radians lat1) / 2) ^ 2 =
      1 / 2 - cos (radians lat2 - radians lat1) / 2 := by
    rw [sin_sq_eq_half_sub]
    have : 2 * ((radians lat2 - radians lat1) / 2) = radians lat2 - radians lat1 := by ring
    rw [this]
  have e2 : sin ((radians lon2 - radians lon1) / 2) ^ 2 =
      1 / 2 - cos (radians lon2 - radians lon1) / 2 := by
    rw [sin_sq_eq_half_sub]
    have : 2 * ((radians lon2 - radians lon1) / 2) = radians lon2 - radians lon1 := by ring
    rw [this]
  rw [e1, e2, cos_sub, cos_sub, cos_sub]
  ring

/-- Evaluation of the haversine `c` step: for `a ∈ [0, 1]`,
`2 * atan2 (√a) (√(1-a)) = arccos (1 - 2a)`. -/
theorem two_mul_atan2_sqrt {a : ℝ} (h0 : 0 ≤ a) (h1 : a ≤ 1) :
    2 * atan2 (Real.sqrt a) (Real.sqrt (1 - a)) = arccos (1 - 2 * a) := by
  rcases eq_or_lt_of_le h1 with heq | hlt
  · subst heq
    have hx : Real.sqrt (1 - 1) = 0 := by norm_num
    have hy : Real.sqrt 1 = 1 := Real.sqrt_one
    rw [hx, hy]
    unfold atan2
    rw [if_neg (by norm_num), if_neg (by norm_num), if_neg (by norm_num),
      if_pos (by norm_num)]
    have : (1 : ℝ) - 2 * 1 = -1 := by norm_num
    rw [this, arccos_neg_one]
    ring
  · set t := Real.sqrt a with ht
    have ht0 : 0 ≤ t := Real.sqrt_nonneg a
    have ht2 : t ^ 2 = a := Real.sq_sqrt h0
    have ht1 : t < 1 := by
      nlinarith [ht2, hlt, ht0]
    have hx : Real.sqrt (1 - a) = Real.sqrt (1 - t ^ 2) := by rw [ht2]
    have hxpos : 0 < Real.sqrt (1 - a) := by
      apply Real.sqrt_pos.2; linarith
    unfold atan2
    rw [if_pos hxpos]
    have harcsin : arctan (t / Real.sqrt (1 - a)) = arcsin t := by
      rw [hx, arcsin_eq_arctan ⟨by linarith, ht1⟩]
    rw [harcsin]
    have hnn : 0 ≤ arcsin t := arcsin_nonneg.2 ht0
    have hle : arcsin t ≤ π / 2 := arcsin_le_pi_div_two t
    have hcos : cos (2 * arcsin t) = 1 - 2 * a := by
      rw [cos_two_mul, cos_sq', sin_arcsin (by linarith) (le_of_lt ht1)]
      rw [← ht2]; ring
    rw [← hcos, arccos_cos (by linarith) (by linarith)]

/-- The haversine distance equals `6371` times the central angle (the
arccosine of the dot product of the unit-sphere embeddings). -/
theorem haversine_eq_arccos (lon1 lat1 lon2 lat2 : ℝ) :
    haversine lon1 lat1 lon2 lat2 =
      6371 * arccos (dot3 (sphVec lat1 lon1) (sphVec lat2 lon2)) := by
  have hunit1 := sphVec_unit lat1 lon1
  have hunit2 := sphVec_unit lat2 lon2
  have hd1 : dot3 (sphVec lat1 lon1) (sphVec lat2 lon2) ≤ 1 := dot3_le_one hunit1 hunit2
  have hd2 : -1 ≤ dot3 (sphVec lat1 lon1) (sphVec lat2 lon2) := neg_one_le_dot3 hunit1 hunit2
  unfold haversine
  rw [hav_a_eq]
  set d := dot3 (sphVec lat1 lon1) (sphVec lat2 lon2) with hdd
  have h0 : 0 ≤ (1 - d) / 2 := by linarith
  have h1 : (1 - d) / 2 ≤ 1 := by linarith
  rw [two_mul_atan2_sqrt h0 h1]
  have hd : 1 - 2 * ((1 - d) / 2) = d := by ring
  rw [hd]

theorem haversine_nonneg (lon1 lat1 lon2 lat2 : ℝ) : 0 ≤ haversine lon1 lat1 lon2 lat2 := by
  rw [haversine_eq_arccos]
  have := arccos_nonneg (dot3 (sphVec lat1 lon1) (sphVec lat2 lon2))
  nlinarith

theorem haversine_self (lon lat : ℝ) : haversine lon lat lon lat = 0 := by
  rw [haversine_eq_arccos, sphVec_unit, arccos_one, mul_zero]

/-- Triangle inequality for the central angle of unit vectors. -/
theorem arccos_dot3_triangle {u v w : ℝ × ℝ × ℝ} (hu : dot3 u u = 1) (hv : dot3 v v = 1)
    (hw : dot3 w w = 1) :
    arccos (dot3 u w) ≤ arccos (dot3 u v) + arccos (dot3 v w) := by
  set α := arccos (dot3 u v) with ha
  set β := arccos (dot3 v w) with hb
  have hα0 : 0 ≤ α := arccos_nonneg _
  have hβ0 : 0 ≤ β := arccos_nonneg _
  by_cases hπ : π ≤ α + β
  · exact le_trans (arccos_le_pi _) hπ
  push_neg at hπ
  have huv1 : dot3 u v ≤ 1 := dot3_le_one hu hv
  have huv2 : -1 ≤ dot3 u v := neg_one_le_dot3 hu hv
  have hvw1 : dot3 v w ≤ 1 := dot3_le_one hv hw
  have hvw2 : -1 ≤ dot3 v w := neg_one_le_dot3 hv hw
  -- Gram inequality via Cauchy-Schwarz on the residuals of u, w against v.
  have hgram : (dot3 u w - dot3 u v * dot3 v w) ^ 2 ≤
      (1 - dot3 u v ^ 2) * (1 - dot3 v w ^ 2) := by
    set p : ℝ × ℝ × ℝ := (u.1 - dot3 u v * v.1, u.2.1 - dot3 u v * v.2.1,
      u.2.2 - dot3 u v * v.2.2) with hp
    set q : ℝ × ℝ × ℝ := (w.1 - dot3 v w * v.1, w.2.1 - dot3 v w * v.2.1,
      w.2.2 - dot3 v w * v.2.2) with hq
    have e1 : dot3 p q = dot3 u w - dot3 u v * dot3 v w -
        dot3 u v * dot3 v w + dot3 u v * dot3 v w * dot3 v v := by
      simp [hp, hq, dot3]; ring
    have e2 : dot3 p p = 1 - 2 * dot3 u v ^ 2 + dot3 u v ^ 2 * dot3 v v := by
      have : dot3 p p = dot3 u u - 2 * dot3 u v * dot3 u v +
          dot3 u v ^ 2 * dot3 v v := by
        simp [hp, dot3]; ring
      rw [this, hu]; ring
    have e3 : dot3 q q = 1 - 2 * dot3 v w ^ 2 + dot3 v w ^ 2 * dot3 v v := by
      have : dot3 q q = dot3 w w - 2 * dot3 v w * dot3 v w +
          dot3 v w ^ 2 * dot3 v v := by
        simp [hq, dot3]; ring
      rw [this, hw]; ring
    have hcs := cauchy3 p q
    rw [e1, e2, e3, hv] at hcs
    calc (dot3 u w - dot3 u v * dot3 v w) ^ 2
        = (dot3 u w - dot3 u v * dot3 v w - dot3 u v * dot3 v w +
            dot3 u v * dot3 v w * 1) ^ 2 := by ring
      _ ≤ (1 - 2 * dot3 u v ^ 2 + dot3 u v ^ 2 * 1) *
            (1 - 2 * dot3 v w ^ 2 + dot3 v w ^ 2 * 1) := hcs
      _ = (1 - dot3 u v ^ 2) * (1 - dot3 v w ^ 2) := by ring
  have hX : (0 : ℝ) ≤ 1 - dot3 u v ^ 2 := by nlinarith
  have hY : (0 : ℝ) ≤ 1 - dot3 v w ^ 2 := by nlinarith
  have habs : |dot3 u w - dot3 u v * dot3 v w| ≤
      Real.sqrt (1 - dot3 u v ^ 2) * Real.sqrt (1 - dot3 v w ^ 2) := by
    have h1 : Real.sqrt ((dot3 u w - dot3 u v * dot3 v w) ^ 2) ≤
        Real.sqrt ((1 - dot3 u v ^ 2) * (1 - dot3 v w ^ 2)) := Real.sqrt_le_sqrt hgram
    rw [Real.sqrt_sq_eq_abs, Real.sqrt_mul hX] at h1
    exact h1
  have hkey : cos (α + β) ≤ dot3 u w := by
    rw [cos_add]
    rw [ha, hb, cos_arccos huv2 huv1, cos_arccos hvw2 hvw1,
      sin_arccos, sin_arccos]
    have := neg_abs_le (dot3 u w - dot3 u v * dot3 v w)
    nlinarith [habs, this]
  have hmono : arccos (dot3 u w) ≤ arccos (cos (α + β)) := by
    rw [arccos_eq_pi_div_two_sub_arcsin, arccos_eq_pi_div_two_sub_arcsin]
    have := monotone_arcsin hkey
    linarith
  rw [arccos_cos (by linarith) (by linarith)] at hmono
  exact hmono

/-- Triangle inequality for the haversine distance. -/
theorem haversine_triangle (lon1 lat1 lon2 lat2 lon3 lat3 : ℝ) :
    haversine lon1 lat1 lon3 lat3 ≤
      haversine lon1 lat1 lon2 lat2 + haversine lon2 lat2 lon3 lat3 := by
  rw [haversine_eq_arccos, haversine_eq_arccos, haversine_eq_arccos]
  have := arccos_dot3_triangle (sphVec_unit lat1 lon1) (sphVec_unit lat2 lon2)
    (sphVec_unit lat3 lon3)
  nlinarith

/-! ### Concrete haversine values on degenerate grids

The counterexample grids below place their two latitude rows at 0 (the
equator) and 90 degrees (the pole), so that every haversine value the
search evaluates is an exact rational multiple of `degKm` below. -/

/-- Kilometres per degree of arc on the model sphere: `6371 * π / 180`. -/
noncomputable def degKm : ℝ := 6371 * π / 180

theorem degKm_pos : 0 < degKm := by
  unfold degKm
  positivity

theorem radians_zero : radians 0 = 0 := by unfold radians; ring

theorem radians_ninety : radians 90 = π / 2 := by unfold radians; ring

theorem atan2_sin_cos {t : ℝ} (h1 : 0 ≤ t) (h2 : t < π / 2) :
    atan2 (sin t) (cos t) = t := by
  have hc : 0 < cos t := cos_pos_of_mem_Ioo ⟨by linarith [pi_pos], h2⟩
  unfold atan2
  rw [if_pos hc, ← tan_eq_sin_div_cos, arctan_tan (by linarith [pi_pos]) h2]

theorem abs_sin_eq {t : ℝ} (h : |t| ≤ π) : |sin t| = sin |t| := by
  rcases abs_cases t with ⟨he, hnn⟩ | ⟨he, hneg⟩
  · rw [he, abs_of_nonneg (sin_nonneg_of_nonneg_of_le_pi hnn (by rw [← he]; exact h))]
  · have hs : sin t ≤ 0 := by
      apply sin_nonpos_of_nonnpos_of_neg_pi_le (le_of_lt hneg)
      have h2 : -t ≤ π := by rw [← he]; exact h
      linarith
    rw [he, sin_neg, abs_of_nonpos hs]

/-- Both points on the equator: haversine is exactly `degKm` per degree of
longitude difference, provided the difference is below 180 degrees. -/
theorem hav_equator {x y : ℝ} (h : |y - x| < 180) :
    haversine x 0 y 0 = degKm * |y - x| := by
  have hπ := pi_pos
  set t := radians (y - x) / 2 with htdef
  have habs : |t| < π / 2 := by
    have : |t| = |y - x| * π / 360 := by
      rw [htdef]; unfold radians
      rw [abs_div, abs_div, abs_mul]
      rw [abs_of_pos hπ]
      norm_num
      ring
    rw [this]
    have hm : |y - x| * π < 180 * π := mul_lt_mul_of_pos_right h hπ
    linarith
  have ha : havA x 0 y 0 = sin t ^ 2 := by
    unfold havA
    rw [htdef]
    norm_num [radians_zero]
  unfold haversine
  rw [ha, Real.sqrt_sq_eq_abs, ← cos_sq' t]
  have hcpos : 0 < cos t := cos_pos_of_mem_Ioo ⟨by cases abs_lt.1 habs; linarith, by
    cases abs_lt.1 habs; linarith⟩
  rw [Real.sqrt_sq (le_of_lt hcpos)]
  have hsin : |sin t| = sin |t| := abs_sin_eq (by linarith [abs_nonneg t])
  have hcos : cos t = cos |t| := (cos_abs t).symm
  rw [hsin, hcos, atan2_sin_cos (abs_nonneg t) habs]
  have h2 : 2 * |t| = |radians (y - x)| := by
    rw [htdef, abs_div, abs_two]
    ring
  rw [h2]
  unfold radians degKm
  rw [abs_div, abs_mul, abs_of_pos hπ,
    show |(180 : ℝ)| = 180 by norm_num]
  ring

/-- Both points on the 90-degree row (the pole): haversine is zero
regardless of the longitudes. -/
theorem hav_pole (x y : ℝ) : haversine x 90 y 90 = 0 := by
  have ha : havA x 90 y 90 = 0 := by
    unfold havA
    rw [radians_ninety]
    norm_num [radians_zero, cos_pi_div_two]
  unfold haversine
  rw [ha]
  norm_num [atan2, arctan_zero]

/-- One point on the equator row and one on the pole row: haversine is a
quarter of the great circle, regardless of the longitudes. -/
theorem hav_mixed_up (x y : ℝ) : haversine x 0 y 90 = degKm * 90 := by
  have hq : sin (π / 4) ^ 2 = 1 / 2 := by
    rw [sin_pi_div_four]
    rw [div_pow, Real.sq_sqrt (by norm_num : (0:ℝ) ≤ 2)]
    norm_num
  have ha : havA x 0 y 90 = 1 / 2 := by
    unfold havA
    have h90 : radians (90 - 0) = π / 2 := by rw [show (90 - 0 : ℝ) = 90 by norm_num, radians_ninety]
    rw [h90, radians_zero, radians_ninety, cos_pi_div_two]
    rw [show π / 2 / 2 = π / 4 by ring, hq]
    ring
  unfold haversine
  rw [ha]
  have hhalf : Real.sqrt (1 - 1 / 2) = Real.sqrt (1 / 2) := by norm_num
  have hpos : 0 < Real.sqrt (1 / 2 : ℝ) := Real.sqrt_pos.2 (by norm_num)
  rw [hhalf]
  unfold atan2
  rw [if_pos hpos, div_self (ne_of_gt hpos), arctan_one]
  unfold degKm
  ring

/-- The pole-to-equator direction of `hav_mixed_up`. -/
theorem hav_mixed_down (x y : ℝ) : haversine x 90 y 0 = degKm * 90 := by
  have hq : sin (-(π / 4)) ^ 2 = 1 / 2 := by
    rw [sin_neg, neg_pow, sin_pi_div_four]
    rw [div_pow, Real.sq_sqrt (by norm_num : (0:ℝ) ≤ 2)]
    norm_num
  have ha : havA x 90 y 0 = 1 / 2 := by
    unfold havA
    have h90 : radians (0 - 90) = -(π / 2) := by
      rw [show (0 - 90 : ℝ) = -90 by norm_num]
      unfold radians; ring
    rw [h90, radians_zero, radians_ninety, cos_pi_div_two]
    rw [show -(π / 2) / 2 = -(π / 4) by ring, hq]
    ring
  unfold haversine
  rw [ha]
  have hhalf : Real.sqrt (1 - 1 / 2) = Real.sqrt (1 / 2) := by norm_num
  have hpos : 0 < Real.sqrt (1 / 2 : ℝ) := Real.sqrt_pos.2 (by norm_num)
  rw [hhalf]
  unfold atan2
  rw [if_pos hpos, div_self (ne_of_gt hpos), arctan_one]
  unfold degKm
  ring

/-! ### Paths, edge costs, and route distance -/

/-- Adjacency of grid nodes in the 8-connected Moore neighbourhood used by
`a_star` (app.py line 157): the two nodes are distinct and differ by at
most one in each index. -/
def adjacent (m n : Node) : Prop :=
  m ≠ n ∧ (m.1 = n.1 ∨ m.1 + 1 = n.1 ∨ n.1 + 1 = m.1) ∧
    (m.2 = n.2 ∨ m.2 + 1 = n.2 ∨ n.2 + 1 = m.2)

instance (m n : Node) : Decidable (adjacent m n) :=
  inferInstanceAs (Decidable (m ≠ n ∧ (m.1 = n.1 ∨ m.1 + 1 = n.1 ∨ n.1 + 1 = m.1) ∧
    (m.2 = n.2 ∨ m.2 + 1 = n.2 ∨ n.2 + 1 = m.2)))

/-- A path from `s` to `g` in the 8-connected grid graph whose nodes are
the in-bounds non-land nodes. -/
def ValidPath (W H : ℕ) (land : ℕ → ℕ → Bool) (s g : Node) (p : List Node) : Prop :=
  p.head? = some s ∧ p.getLast? = some g ∧ p.Chain' adjacent ∧
    ∀ n ∈ p, n.1 < W ∧ n.2 < H ∧ land n.2 n.1 = false

/-- The `weather_factor` local of the A* neighbour expansion (app.py line
162): `1 + (0.1 * swh[nj, ni]) + (0.05 * ws[nj, ni])`. -/
def weather_factor {K : Type} [LinearOrderedField K] (s w : K) : K :=
  1 + 0.1 * s + 0.05 * w

/-- Total accumulated cost of a node path under the `a_star` edge cost
(app.py lines 161-164): for each step the haversine distance between the
node coordinates, times the weather factor of the edge's destination node,
divided by the ship speed. -/
noncomputable def pathCost (lon lat : ℕ → ℝ) (swh ws : ℕ → ℕ → ℝ) (speed : ℝ) :
    List Node → ℝ
  | [] => 0
  | [_] => 0
  | a :: b :: rest =>
      haversine (lon a.1) (lat a.2) (lon b.1) (lat b.2) *
          weather_factor (swh b.2 b.1) (ws b.2 b.1) / speed +
        pathCost lon lat swh ws speed (b :: rest)

/-- The `total_distance` computation of `optimize_route` (app.py line 211):
the sum of the haversine lengths of consecutive segments of the smoothed
route. -/
noncomputable def totalDistance : List (ℝ × ℝ) → ℝ
  | [] => 0
  | [_] => 0
  | p1 :: p2 :: rest => haversine p1.1 p1.2 p2.1 p2.2 + totalDistance (p2 :: rest)

/-- C7: any point sequence starting at `sp` and ending at `ep` has total
haversine length at least the direct haversine distance from `sp` to `ep`
(by the triangle inequality); applied to the smoothed route, whose first
and last points are the caller's start and end coordinates, this is the
spec's claim. -/
theorem c7_total_distance_ge_direct :
    ∀ (route : List (ℝ × ℝ)) (sp ep : ℝ × ℝ),
      route.head? = some sp → route.getLast? = some ep →
      haversine sp.1 sp.2 ep.1 ep.2 ≤ totalDistance route := by
  intro route
  induction route with
  | nil => intro sp ep hh hl; simp at hh
  | cons x rest ih =>
    intro sp ep hh hl
    simp only [List.head?_cons, Option.some.injEq] at hh
    subst hh
    cases rest with
    | nil =>
      simp only [List.getLast?_singleton, Option.some.injEq] at hl
      subst hl
      rw [haversine_self]
      simp [totalDistance]
    | cons y rest2 =>
      rw [List.getLast?_cons_cons] at hl
      have h2 := ih y ep (by simp) hl
      have htri := haversine_triangle x.1 x.2 y.1 y.2 ep.1 ep.2
      show haversine x.1 x.2 ep.1 ep.2 ≤
        haversine x.1 x.2 y.1 y.2 + totalDistance (y :: rest2)
      linarith

/-- Witness for C7 at a concrete two-point route. -/
theorem c7_witness :
    haversine 0 0 1 1 ≤ totalDistance [((0 : ℝ), (0 : ℝ)), ((1 : ℝ), (1 : ℝ))] :=
  c7_total_distance_ge_direct [((0 : ℝ), (0 : ℝ)), ((1 : ℝ), (1 : ℝ))]
    ((0 : ℝ), (0 : ℝ)) ((1 : ℝ), (1 : ℝ)) rfl rfl

/-- C8: with nonnegative wave height and wind speed, the traversal
multiplier equals `1 + 0.1·swh + 0.05·ws`, is at least 1, and never
reduces an edge's weighted haversine length below the unweighted one. -/
theorem c8_weather_factor_ge_one (s w : ℝ) (hs : 0 ≤ s) (hw : 0 ≤ w) :
    weather_factor s w = 1 + 0.1 * s + 0.05 * w ∧
      1 ≤ weather_factor s w ∧
      ∀ lon1 lat1 lon2 lat2 : ℝ,
        haversine lon1 lat1 lon2 lat2 ≤
          haversine lon1 lat1 lon2 lat2 * weather_factor s w := by
  refine ⟨rfl, ?_, ?_⟩
  · unfold weather_factor
    nlinarith
  · intro lon1 lat1 lon2 lat2
    have h1 : 1 ≤ weather_factor s w := by unfold weather_factor; nlinarith
    exact le_mul_of_one_le_right (haversine_nonneg lon1 lat1 lon2 lat2) h1

/-- Witness for C8 at concrete weather values. -/
theorem c8_witness :
    weather_factor (3 : ℝ) 4 = 1 + 0.1 * 3 + 0.05 * 4 ∧
      1 ≤ weather_factor (3 : ℝ) 4 ∧
      ∀ lon1 lat1 lon2 lat2 : ℝ,
        haversine lon1 lat1 lon2 lat2 ≤ haversine lon1 lat1 lon2 lat2 * weather_factor 3 4 :=
  c8_weather_factor_ge_one 3 4 (by norm_num) (by norm_num)

/-! ### C3: admissibility of the heuristic -/

/-- Longitudes of the two-node equator grid used to refute C3:
`lon = [0, 1]` (in degrees, clamped beyond the array bound). -/
noncomputable def lonE : ℕ → ℝ := fun i => if i = 0 then 0 else 1

/-- Latitudes of the two-node equator grid: the single row `lat = [0]`. -/
noncomputable def latE : ℕ → ℝ := fun _ => 0

/-- An all-zero (calm) wave-height or wind-speed grid. -/
noncomputable def zeroField : ℕ → ℕ → ℝ := fun _ _ => 0

/-- An all-water land mask. -/
def waterMask : ℕ → ℕ → Bool := fun _ _ => false

/-- Counterexample to C3.  On the two-node equator grid with calm weather
and `ship_speed = 2 ≥ 1`, the heuristic value at node `(0,0)` towards goal
`(1,0)` (the haversine distance, not divided by speed) strictly exceeds
the cost of the valid one-edge path `[(0,0), (1,0)]`, hence exceeds the
minimum remaining cost: the heuristic is not admissible for
`ship_speed ≥ 1`. -/
theorem c3_counterexample :
    (1 : ℝ) ≤ 2 ∧ (∀ j i, 0 ≤ zeroField j i) ∧
      ValidPath 2 1 waterMask (0, 0) (1, 0) [(0, 0), (1, 0)] ∧
      pathCost lonE latE zeroField zeroField 2 [(0, 0), (1, 0)] <
        haversine (lonE 0) (latE 0) (lonE 1) (latE 0) := by
  refine ⟨by norm_num, fun j i => le_refl 0, ?_, ?_⟩
  · unfold ValidPath waterMask
    refine ⟨rfl, rfl, ?_, ?_⟩
    · show List.Chain' adjacent [(0, 0), (1, 0)]
      exact List.chain'_cons.2 ⟨by decide, List.chain'_singleton _⟩
    · intro n hn
      simp only [List.mem_cons, List.not_mem_nil, or_false] at hn
      rcases hn with h | h <;> subst h <;> exact ⟨by norm_num, by norm_num, rfl⟩
  · have hhav : haversine (lonE 0) (latE 0) (lonE 1) (latE 0) = degKm := by
      show haversine (lonE 0) 0 (lonE 1) 0 = degKm
      have h0 : lonE 0 = 0 := by unfold lonE; norm_num
      have h1 : lonE 1 = 1 := by unfold lonE; norm_num
      rw [h0, h1, hav_equator (by norm_num)]
      norm_num
    have hcost : pathCost lonE latE zeroField zeroField 2 [(0, 0), (1, 0)] =
        degKm / 2 := by
      show haversine (lonE 0) (latE 0) (lonE 1) (latE 0) *
          weather_factor (zeroField 0 1) (zeroField 0 1) / 2 + 0 = degKm / 2
      rw [hhav]
      unfold zeroField weather_factor
      norm_num
    rw [hcost, hhav]
    linarith [degKm_pos]

/-- C3 amended: the heuristic is admissible whenever `0 < ship_speed ≤ 1`
(not `ship_speed ≥ 1` as claimed): with nonnegative weather grids, every
point sequence from a node to the goal has accumulated cost at least the
haversine distance from the node to the goal. -/
theorem c3_amended_admissible_below_one (lon lat : ℕ → ℝ) (swh ws : ℕ → ℕ → ℝ)
    (speed : ℝ) (hswh : ∀ j i, 0 ≤ swh j i) (hws : ∀ j i, 0 ≤ ws j i)
    (hs0 : 0 < speed) (hs1 : speed ≤ 1) :
    ∀ (p : List Node) (n g : Node), p.head? = some n → p.getLast? = some g →
      haversine (lon n.1) (lat n.2) (lon g.1) (lat g.2) ≤
        pathCost lon lat swh ws speed p := by
  intro p
  induction p with
  | nil => intro n g hh hl; simp at hh
  | cons x rest ih =>
    intro n g hh hl
    simp only [List.head?_cons, Option.some.injEq] at hh
    subst hh
    cases rest with
    | nil =>
      simp only [List.getLast?_singleton, Option.some.injEq] at hl
      subst hl
      rw [haversine_self]
      show (0 : ℝ) ≤ 0
      exact le_refl 0
    | cons y rest2 =>
      rw [List.getLast?_cons_cons] at hl
      have h2 := ih y g (by simp) hl
      have htri := haversine_triangle (lon x.1) (lat x.2) (lon y.1) (lat y.2)
        (lon g.1) (lat g.2)
      have hedge : haversine (lon x.1) (lat x.2) (lon y.1) (lat y.2) ≤
          haversine (lon x.1) (lat x.2) (lon y.1) (lat y.2) *
            weather_factor (swh y.2 y.1) (ws y.2 y.1) / speed := by
        have hfac : 1 ≤ weather_factor (swh y.2 y.1) (ws y.2 y.1) := by
          unfold weather_factor
          nlinarith [hswh y.2 y.1, hws y.2 y.1]
        have hnn := haversine_nonneg (lon x.1) (lat x.2) (lon y.1) (lat y.2)
        have hmul : haversine (lon x.1) (lat x.2) (lon y.1) (lat y.2) ≤
            haversine (lon x.1) (lat x.2) (lon y.1) (lat y.2) *
              weather_factor (swh y.2 y.1) (ws y.2 y.1) :=
          le_mul_of_one_le_right hnn hfac
        calc haversine (lon x.1) (lat x.2) (lon y.1) (lat y.2)
            ≤ haversine (lon x.1) (lat x.2) (lon y.1) (lat y.2) *
                weather_factor (swh y.2 y.1) (ws y.2 y.1) := hmul
          _ ≤ haversine (lon x.1) (lat x.2) (lon y.1) (lat y.2) *
                weather_factor (swh y.2 y.1) (ws y.2 y.1) / speed := by
              apply le_div_self _ hs0 hs1
              nlinarith
      show haversine (lon x.1) (lat x.2) (lon g.1) (lat g.2) ≤
        haversine (lon x.1) (lat x.2) (lon y.1) (lat y.2) *
            weather_factor (swh y.2 y.1) (ws y.2 y.1) / speed +
          pathCost lon lat swh ws speed (y :: rest2)
      linarith

/-- Witness for the amended C3 at speed 1 on a trivial one-node path. -/
theorem c3_amended_witness :
    haversine (lonE 0) (latE 0) (lonE 0) (latE 0) ≤
      pathCost lonE latE zeroField zeroField 1 [(0, 0)] :=
  c3_amended_admissible_below_one lonE latE zeroField zeroField 1
    (fun j i => le_refl 0) (fun j i => le_refl 0) (by norm_num) (by norm_num)
    [(0, 0)] (0, 0) (0, 0) rfl rfl

/-! ### C4: smooth_path endpoint pinning -/

/-- Model of `smooth_path` (app.py lines 116-125).  The scipy spline fit
and resampling (`splprep`/`splev`, external library code outside this
repository) are abstracted as the parameter `spline`, giving the list of
`num_points` resampled points; the function mirrors the source exactly
around it: inputs with fewer than 4 points are returned unchanged, and
otherwise the first and last resampled points are overwritten with the
original first and last input points (`smoothed[0], smoothed[-1] =
path_points[0], path_points[-1]`, assignments performed in that order). -/
def smooth_path (spline : List (ℝ × ℝ) → ℕ → List (ℝ × ℝ))
    (path_points : List (ℝ × ℝ)) (num_points : ℕ) : List (ℝ × ℝ) :=
  if path_points.length < 4 then path_points
  else
    ((spline path_points num_points).set 0 path_points.headI).set
      ((spline path_points num_points).length - 1) path_points.getLastI

/-- C4: for every non-empty input, the output of `smooth_path` starts with
the input's first point and ends with the input's last point — in the
pass-through branch trivially, and in the spline branch because the
endpoints are overwritten after resampling (assuming the resampled list
has the requested length, at least 2 for the default 100). -/
theorem c4_smooth_path_endpoints (spline : List (ℝ × ℝ) → ℕ → List (ℝ × ℝ))
    (pts : List (ℝ × ℝ)) (num : ℕ) (s e : ℝ × ℝ)
    (hh : pts.head? = some s) (hl : pts.getLast? = some e)
    (hlen : 2 ≤ (spline pts num).length) :
    (smooth_path spline pts num).head? = some s ∧
      (smooth_path spline pts num).getLast? = some e := by
  unfold smooth_path
  by_cases hc : pts.length < 4
  · simp only [if_pos hc]
    exact ⟨hh, hl⟩
  · simp only [if_neg hc]
    have hhI : pts.headI = s := by
      cases pts with
      | nil => simp at hh
      | cons a l =>
        simp only [List.head?_cons, Option.some.injEq] at hh
        rw [← hh]; rfl
    have hlI : pts.getLastI = e := by
      rw [List.getLastI_eq_getLast?, hl]
    constructor
    · rw [List.head?_eq_getElem?]
      rw [List.getElem?_set_ne (by omega)]
      rw [List.getElem?_set_self (by omega), hhI]
    · rw [List.getLast?_eq_getElem?]
      simp only [List.length_set]
      rw [List.getElem?_set_self (by simp only [List.length_set]; omega), hlI]

/-- Witness for C4: a concrete 4-point input with a concrete resampling. -/
theorem c4_witness :
    (smooth_path (fun _ n => List.replicate n ((5 : ℝ), (5 : ℝ)))
        [((1 : ℝ), (2 : ℝ)), (3, 4), (5, 6), (7, 8)] 100).head? = some (1, 2) ∧
      (smooth_path (fun _ n => List.replicate n ((5 : ℝ), (5 : ℝ)))
        [((1 : ℝ), (2 : ℝ)), (3, 4), (5, 6), (7, 8)] 100).getLast? = some (7, 8) :=
  c4_smooth_path_endpoints (fun _ n => List.replicate n ((5 : ℝ), (5 : ℝ)))
    [((1 : ℝ), (2 : ℝ)), (3, 4), (5, 6), (7, 8)] 100 (1, 2) (7, 8) rfl rfl
    (by rw [List.length_replicate]; omega)

/-! ### C5 and C10: escape search (`find_nearest_water_node`) -/

/-- The inner double loop of `find_nearest_water_node` (app.py lines
131-134) at a given `search_radius` `r`: scan `i` over
`range(start_i - r, start_i + r + 1)` (outer) and `j` over
`range(start_j - r, start_j + r + 1)` (inner), returning the first
in-bounds non-land node.  Indices are integers, as in Python. -/
def scanSquare (land : ℕ → ℕ → Bool) (W H : ℕ) (si sj : ℤ) (r : ℕ) : Option (ℤ × ℤ) :=
  (List.range (2 * r + 1)).findSome? (fun (a : ℕ) =>
    (List.range (2 * r + 1)).findSome? (fun (b : ℕ) =>
      if 0 ≤ si - (r : ℤ) + (a : ℤ) ∧ si - (r : ℤ) + (a : ℤ) < (W : ℤ) ∧
          0 ≤ sj - (r : ℤ) + (b : ℤ) ∧ sj - (r : ℤ) + (b : ℤ) < (H : ℤ) ∧
          land (sj - (r : ℤ) + (b : ℤ)).toNat (si - (r : ℤ) + (a : ℤ)).toNat = false
      then some (si - (r : ℤ) + (a : ℤ), sj - (r : ℤ) + (b : ℤ))
      else none))

/-- `find_nearest_water_node` (app.py lines 127-136): if the query node is
not land it is returned unchanged; otherwise the `while search_radius <
max(num_lon, num_lat)` loop over `search_radius = 1, 2, …` is written as a
first-success scan over the radius list `[1, …, max W H - 1]`, returning
`None` if no radius finds water. -/
def find_nearest_water_node (si sj : ℕ) (land : ℕ → ℕ → Bool) (W H : ℕ) :
    Option (ℤ × ℤ) :=
  if land sj si = false then some ((si : ℤ), (sj : ℤ))
  else (List.range' 1 (max W H - 1)).findSome? (fun r => scanSquare land W H si sj r)

/-- Soundness of one square scan: any returned node is in bounds, is
water, and lies within Chebyshev distance `r` of the query node. -/
theorem scanSquare_sound {land : ℕ → ℕ → Bool} {W H : ℕ} {si sj : ℤ} {r : ℕ}
    {ri rj : ℤ} (h : scanSquare land W H si sj r = some (ri, rj)) :
    0 ≤ ri ∧ ri < (W : ℤ) ∧ 0 ≤ rj ∧ rj < (H : ℤ) ∧
      land rj.toNat ri.toNat = false ∧ (ri - si).natAbs ≤ r ∧ (rj - sj).natAbs ≤ r := by
  unfold scanSquare at h
  obtain ⟨a, ha, h2⟩ := List.exists_of_findSome?_eq_some h
  obtain ⟨b, hb, h3⟩ := List.exists_of_findSome?_eq_some h2
  rw [List.mem_range] at ha hb
  by_cases hcond : 0 ≤ si - r + a ∧ si - r + a < (W : ℤ) ∧ 0 ≤ sj - r + b ∧
      sj - r + b < (H : ℤ) ∧ land (sj - r + b).toNat (si - r + a).toNat = false
  · rw [if_pos hcond] at h3
    obtain ⟨he1, he2⟩ : si - r + a = ri ∧ sj - r + b = rj := by
      have := h3
      simp only [Option.some.injEq, Prod.mk.injEq] at this
      exact this
    obtain ⟨hc1, hc2, hc3, hc4, hc5⟩ := hcond
    subst he1; subst he2
    refine ⟨hc1, hc2, hc3, hc4, hc5, ?_, ?_⟩ <;> omega
  · rw [if_neg hcond] at h3
    exact absurd h3 (by simp)

/-- Completeness of one square scan: if some in-bounds water node lies in
the square of Chebyshev radius `r`, the scan returns something. -/
theorem scanSquare_complete {land : ℕ → ℕ → Bool} {W H : ℕ} {si sj : ℤ} {r : ℕ}
    (wi wj : ℕ) (hwi : wi < W) (hwj : wj < H) (hw : land wj wi = false)
    (hci : ((wi : ℤ) - si).natAbs ≤ r) (hcj : ((wj : ℤ) - sj).natAbs ≤ r) :
    (scanSquare land W H si sj r).isSome := by
  unfold scanSquare
  rw [List.findSome?_isSome_iff]
  refine ⟨((wi : ℤ) - (si - r)).toNat, by rw [List.mem_range]; omega, ?_⟩
  rw [List.findSome?_isSome_iff]
  refine ⟨((wj : ℤ) - (sj - r)).toNat, by rw [List.mem_range]; omega, ?_⟩
  have hei : si - r + ((wi : ℤ) - (si - r)).toNat = (wi : ℤ) := by omega
  have hej : sj - r + ((wj : ℤ) - (sj - r)).toNat = (wj : ℤ) := by omega
  rw [hei, hej]
  rw [if_pos]
  · simp
  · refine ⟨by omega, by omega, by omega, by omega, ?_⟩
    simpa using hw

/-- Main helper for C5 and C10: a land-masked in-bounds query with a water
node within Chebyshev distance `k < max W H` yields a water node within
Chebyshev distance `k`. -/
theorem fnwn_finds_within {W H k si sj wi wj : ℕ} {land : ℕ → ℕ → Bool}
    (hland : land sj si = true)
    (hwi : wi < W) (hwj : wj < H) (hw : land wj wi = false)
    (hcheb : max ((wi : ℤ) - si).natAbs ((wj : ℤ) - sj).natAbs ≤ k)
    (hk : k < max W H) :
    ∃ ri rj : ℤ, find_nearest_water_node si sj land W H = some (ri, rj) ∧
      0 ≤ ri ∧ ri < (W : ℤ) ∧ 0 ≤ rj ∧ rj < (H : ℤ) ∧
      land rj.toNat ri.toNat = false ∧
      max (ri - si).natAbs (rj - sj).natAbs ≤ k := by
  have hk1 : 1 ≤ k := by
    by_contra hcon
    have hk0 : k = 0 := by omega
    subst hk0
    have hii : wi = si := by omega
    have hjj : wj = sj := by omega
    subst hii; subst hjj
    rw [hland] at hw
    exact absurd hw (by simp)
  unfold find_nearest_water_node
  rw [if_neg (by rw [hland]; simp)]
  have hsplit : List.range' 1 (max W H - 1) =
      List.range' 1 k ++ List.range' (1 + k) (max W H - 1 - k) := by
    rw [List.range'_append_1]
    congr 1
    omega
  rw [hsplit, List.findSome?_append]
  have hsome : ((List.range' 1 k).findSome?
      (fun r => scanSquare land W H si sj r)).isSome := by
    rw [List.findSome?_isSome_iff]
    refine ⟨k, ?_, scanSquare_complete wi wj hwi hwj hw (by omega) (by omega)⟩
    rw [List.mem_range']
    exact ⟨k - 1, by omega, by omega⟩
  obtain ⟨res, hres⟩ := Option.isSome_iff_exists.1 hsome
  rw [hres]
  obtain ⟨r, hrmem, hrfind⟩ := List.exists_of_findSome?_eq_some hres
  have hrk : r ≤ k := by
    rw [List.mem_range'] at hrmem
    obtain ⟨i, hi, he⟩ := hrmem
    omega
  obtain ⟨ri, rj⟩ := res
  obtain ⟨h1, h2, h3, h4, h5, h6, h7⟩ := scanSquare_sound hrfind
  exact ⟨ri, rj, by simp [Option.or], h1, h2, h3, h4, h5, by
    simp only [max_le_iff]
    omega⟩

/-- C5: the escape search returns the query node unchanged when it is not
land, and for a land-masked in-bounds query with a water node within `k`
rings (`k < max(W, H)`), it returns an in-bounds water node within
Chebyshev distance `k` of the query. -/
theorem c5_escape_search_within_k (W H k si sj wi wj : ℕ) (land : ℕ → ℕ → Bool)
    (hsi : si < W) (hsj : sj < H) (hk : k < max W H) :
    (land sj si = false → find_nearest_water_node si sj land W H =
      some ((si : ℤ), (sj : ℤ))) ∧
    (land sj si = true → wi < W → wj < H → land wj wi = false →
      max ((wi : ℤ) - si).natAbs ((wj : ℤ) - sj).natAbs ≤ k →
      ∃ ri rj : ℤ, find_nearest_water_node si sj land W H = some (ri, rj) ∧
        0 ≤ ri ∧ ri < (W : ℤ) ∧ 0 ≤ rj ∧ rj < (H : ℤ) ∧
        land rj.toNat ri.toNat = false ∧
        max (ri - si).natAbs (rj - sj).natAbs ≤ k) := by
  constructor
  · intro hwater
    unfold find_nearest_water_node
    rw [if_pos hwater]
  · intro hland hwi hwj hw hcheb
    exact fnwn_finds_within hland hwi hwj hw hcheb hk

/-- Witness for C5 on a concrete 2-by-2 grid whose query corner is land. -/
theorem c5_witness :
    ((fun j i => decide (j = 0 ∧ i = 0)) 0 0 = false →
      find_nearest_water_node 0 0 (fun j i => decide (j = 0 ∧ i = 0)) 2 2 =
        some ((0 : ℤ), (0 : ℤ))) ∧
    ((fun j i => decide (j = 0 ∧ i = 0)) 0 0 = true → 1 < 2 → 0 < 2 →
      (fun j i => decide (j = 0 ∧ i = 0)) 0 1 = false →
      max ((1 : ℤ) - 0).natAbs ((0 : ℤ) - 0).natAbs ≤ 1 →
      ∃ ri rj : ℤ,
        find_nearest_water_node 0 0 (fun j i => decide (j = 0 ∧ i = 0)) 2 2 =
          some (ri, rj) ∧
        0 ≤ ri ∧ ri < (2 : ℤ) ∧ 0 ≤ rj ∧ rj < (2 : ℤ) ∧
        (fun j i => decide (j = 0 ∧ i = 0)) rj.toNat ri.toNat = false ∧
        max (ri - 0).natAbs (rj - 0).natAbs ≤ 1) :=
  c5_escape_search_within_k 2 2 1 0 0 1 0 (fun j i => decide (j = 0 ∧ i = 0))
    (by decide) (by decide) (by decide)

/-- C10: for an in-bounds query on a grid containing at least one water
node, `find_nearest_water_node` never returns `None`. -/
theorem c10_escape_search_total (W H si sj wi wj : ℕ) (land : ℕ → ℕ → Bool)
    (hsi : si < W) (hsj : sj < H) (hwi : wi < W) (hwj : wj < H)
    (hw : land wj wi = false) :
    find_nearest_water_node si sj land W H ≠ none := by
  cases hq : land sj si with
  | false =>
    unfold find_nearest_water_node
    rw [if_pos hq]
    simp
  | true =>
    obtain ⟨ri, rj, hres, hrest⟩ := fnwn_finds_within hq hwi hwj hw
      (k := max W H - 1)
      (by simp only [max_le_iff]; omega)
      (by omega)
    rw [hres]
    simp

/-- Witness for C10: a grid that is all land except one node. -/
theorem c10_witness :
    find_nearest_water_node 0 0 (fun j i => decide (¬(j = 1 ∧ i = 1))) 2 2 ≠ none :=
  c10_escape_search_total 2 2 0 0 1 1 (fun j i => decide (¬(j = 1 ∧ i = 1)))
    (by decide) (by decide) (by decide) (by decide) (by decide)

/-! ### C6 and C9: the ports index (`ports.py`) -/

/-- A port record as loaded by `PortsIndex._load`: name, optional country
and UN/LOCODE, and coordinates. -/
structure Port where
  name : String
  country : Option String
  unlocode : Option String
  lat : ℝ
  lon : ℝ

/-- The successful result dictionary of `PortsIndex.find_nearest`. -/
structure FoundPort where
  name : String
  country : Option String
  unlocode : Option String
  lat : ℝ
  lon : ℝ
  distance_km : ℝ

/-- Python `round(x, 2)` modelled over the reals: rounding to the nearest
multiple of 1/100.  (Python rounds exact halves to even; which multiple a
half rounds to is immaterial to the claims, which concern which distance
function is rounded.) -/
noncomputable def round2 (x : ℝ) : ℝ := (round (100 * x) : ℤ) / 100

/-- One iteration of the linear-scan loop of `find_nearest` (ports.py
lines 88-94): keep the strictly smaller haversine distance.  The initial
`best = None, best_dist = inf` accumulator is `none`, which every real
distance beats. -/
noncomputable def scanStep (qlat qlon : ℝ) (acc : Option (ℝ × Port)) (p : Port) :
    Option (ℝ × Port) :=
  match acc with
  | none => some (haversine_km qlon qlat p.lon p.lat, p)
  | some (bd, bp) =>
      if haversine_km qlon qlat p.lon p.lat < bd
      then some (haversine_km qlon qlat p.lon p.lat, p)
      else some (bd, bp)

/-- The linear-scan branch of `find_nearest`. -/
noncomputable def linearScan (qlat qlon : ℝ) (ports : List Port) : Option (ℝ × Port) :=
  ports.foldl (scanStep qlat qlon) none

/-- Index of the minimal value of `f` over `0..n`, earliest on ties. -/
noncomputable def argminIdx (f : ℕ → ℝ) : ℕ → ℕ
  | 0 => 0
  | n + 1 => if f (n + 1) < f (argminIdx f n) then n + 1 else argminIdx f n

/-- The KD-tree query `self._tree.query((qx,qy,qz), k=1)` of ports.py line
110: scipy's `cKDTree` performs exact nearest-neighbour search over the
stored unit-sphere embeddings, so it returns an index of a stored point at
minimal (squared) Euclidean distance from the query embedding. -/
noncomputable def kdQuery (coords : List (ℝ × ℝ × ℝ)) (q : ℝ × ℝ × ℝ) : ℕ :=
  argminIdx (fun i => sqDist3 q (coords.getD i (0, 0, 0))) (coords.length - 1)

/-- `PortsIndex.find_nearest` (ports.py lines 82-122).  `hasTree` records
whether `_load` built the KD-tree (scipy importable and a nonempty port
list); the `RuntimeError` is modelled as `Except.error`.  The `None`
fallthrough of the linear scan is unreachable for nonempty port lists. -/
noncomputable def find_nearest (hasTree : Bool) (ports : List Port) (lat lon : ℝ) :
    Except String FoundPort :=
  if ports.isEmpty then .error ("No ports available")
  else if hasTree = false then
    match linearScan lat lon ports with
    | none => .error ("no best port")
    | some (bd, bp) => .ok ⟨bp.name, bp.country, bp.unlocode, bp.lat, bp.lon, round2 bd⟩
  else
    let idx := kdQuery (ports.map (fun p => sphVec p.lat p.lon)) (sphVec lat lon)
    let p := ports.getD idx ⟨"", none, none, 0, 0⟩
    .ok ⟨p.name, p.country, p.unlocode, p.lat, p.lon,
      round2 (haversine_km lon lat p.lon p.lat)⟩

theorem sqDist3_eq_two_sub {u v : ℝ × ℝ × ℝ} (hu : dot3 u u = 1) (hv : dot3 v v = 1) :
    sqDist3 u v = 2 - 2 * dot3 u v := by
  simp only [sqDist3, dot3] at *
  nlinarith [hu, hv]

/-- Chord-to-haversine monotonicity: a port whose unit-sphere embedding is
(squared-)Euclidean closer to the query embedding is also haversine
closer. -/
theorem hav_mono_of_sqDist3 {qlat qlon alat alon blat blon : ℝ}
    (h : sqDist3 (sphVec qlat qlon) (sphVec alat alon) ≤
      sqDist3 (sphVec qlat qlon) (sphVec blat blon)) :
    haversine_km qlon qlat alon alat ≤ haversine_km qlon qlat blon blat := by
  rw [haversine_km_eq_haversine, haversine_km_eq_haversine,
    haversine_eq_arccos, haversine_eq_arccos]
  rw [sqDist3_eq_two_sub (sphVec_unit qlat qlon) (sphVec_unit alat alon),
    sqDist3_eq_two_sub (sphVec_unit qlat qlon) (sphVec_unit blat blon)] at h
  have hd : dot3 (sphVec qlat qlon) (sphVec blat blon) ≤
      dot3 (sphVec qlat qlon) (sphVec alat alon) := by linarith
  have harc : arccos (dot3 (sphVec qlat qlon) (sphVec alat alon)) ≤
      arccos (dot3 (sphVec qlat qlon) (sphVec blat blon)) := by
    rw [arccos_eq_pi_div_two_sub_arcsin, arccos_eq_pi_div_two_sub_arcsin]
    have := monotone_arcsin hd
    linarith
  nlinarith [harc]

theorem argminIdx_le (f : ℕ → ℝ) (n : ℕ) : argminIdx f n ≤ n := by
  induction n with
  | zero => simp [argminIdx]
  | succ m ih =>
    unfold argminIdx
    by_cases hc : f (m + 1) < f (argminIdx f m)
    · rw [if_pos hc]
    · rw [if_neg hc]; omega

theorem argminIdx_min (f : ℕ → ℝ) (n : ℕ) : ∀ j ≤ n, f (argminIdx f n) ≤ f j := by
  induction n with
  | zero =>
    intro j hj
    have hj0 : j = 0 := Nat.le_zero.1 hj
    subst hj0
    simp [argminIdx]
  | succ m ih =>
    intro j hj
    unfold argminIdx
    by_cases hc : f (m + 1) < f (argminIdx f m)
    · rw [if_pos hc]
      rcases eq_or_lt_of_le hj with heq | hlt
      · rw [heq]
      · have hj2 : j ≤ m := by omega
        exact le_trans (le_of_lt hc) (ih j hj2)
    · rw [if_neg hc]
      rcases eq_or_lt_of_le hj with heq | hlt
      · rw [heq]
        exact le_of_not_lt hc
      · exact ih j (by omega)

/-- Characterisation of the linear-scan fold from a `some` accumulator
whose distance matches its port. -/
theorem linearScan_fold_spec (qlat qlon : ℝ) :
    ∀ (l : List Port) (bd : ℝ) (bp : Port),
      bd = haversine_km qlon qlat bp.lon bp.lat →
      ∃ bd' bp', l.foldl (scanStep qlat qlon) (some (bd, bp)) = some (bd', bp') ∧
        bd' = haversine_km qlon qlat bp'.lon bp'.lat ∧
        (bp' = bp ∨ bp' ∈ l) ∧ bd' ≤ bd ∧
        ∀ q ∈ l, bd' ≤ haversine_km qlon qlat q.lon q.lat := by
  intro l
  induction l with
  | nil =>
    intro bd bp hbd
    exact ⟨bd, bp, rfl, hbd, Or.inl rfl, le_refl bd, by simp⟩
  | cons p rest ih =>
    intro bd bp hbd
    rw [List.foldl_cons]
    by_cases hc : haversine_km qlon qlat p.lon p.lat < bd
    · have hstep : scanStep qlat qlon (some (bd, bp)) p =
          some (haversine_km qlon qlat p.lon p.lat, p) := by
        simp only [scanStep]
        rw [if_pos hc]
      rw [hstep]
      obtain ⟨bd', bp', he, h1, h2, h3, h4⟩ :=
        ih (haversine_km qlon qlat p.lon p.lat) p rfl
      refine ⟨bd', bp', he, h1, ?_, by linarith, ?_⟩
      · rcases h2 with h | h
        · exact Or.inr (by rw [h]; exact List.mem_cons_self p rest)
        · exact Or.inr (List.mem_cons_of_mem p h)
      · intro q hq
        rcases List.mem_cons.1 hq with h | h
        · rw [h]; exact h3
        · exact h4 q h
    · have hstep : scanStep qlat qlon (some (bd, bp)) p = some (bd, bp) := by
        show (if haversine_km qlon qlat p.lon p.lat < bd
          then some (haversine_km qlon qlat p.lon p.lat, p)
          else some (bd, bp)) = some (bd, bp)
        rw [if_neg hc]
      rw [hstep]
      obtain ⟨bd', bp', he, h1, h2, h3, h4⟩ := ih bd bp hbd
      refine ⟨bd', bp', he, h1, ?_, h3, ?_⟩
      · rcases h2 with h | h
        · exact Or.inl h
        · exact Or.inr (List.mem_cons_of_mem p h)
      · intro q hq
        rcases List.mem_cons.1 hq with h | h
        · rw [h]
          have := le_of_not_lt hc
          linarith
        · exact h4 q h

/-- The linear scan over a nonempty port list returns a haversine-minimal
port together with its haversine distance. -/
theorem linearScan_spec (qlat qlon : ℝ) (p0 : Port) (rest : List Port) :
    ∃ bd bp, linearScan qlat qlon (p0 :: rest) = some (bd, bp) ∧
      bd = haversine_km qlon qlat bp.lon bp.lat ∧ bp ∈ p0 :: rest ∧
      ∀ q ∈ p0 :: rest, bd ≤ haversine_km qlon qlat q.lon q.lat := by
  unfold linearScan
  rw [List.foldl_cons]
  have hstep : scanStep qlat qlon none p0 =
      some (haversine_km qlon qlat p0.lon p0.lat, p0) := rfl
  rw [hstep]
  obtain ⟨bd', bp', he, h1, h2, h3, h4⟩ :=
    linearScan_fold_spec qlat qlon rest (haversine_km qlon qlat p0.lon p0.lat) p0 rfl
  refine ⟨bd', bp', he, h1, ?_, ?_⟩
  · rcases h2 with h | h
    · rw [h]; exact List.mem_cons_self p0 rest
    · exact List.mem_cons_of_mem p0 h
  · intro q hq
    rcases List.mem_cons.1 hq with h | h
    · rw [h]; exact h3
    · exact h4 q h

/-- The embedded coordinates list evaluated at an in-range index. -/
theorem coords_getD (ports : List Port) (i : ℕ) (h : i < ports.length) :
    (ports.map (fun p => sphVec p.lat p.lon)).getD i (0, 0, 0) =
      sphVec (ports[i].lat) (ports[i].lon) := by
  have h1 : i < (ports.map (fun p => sphVec p.lat p.lon)).length := by
    rw [List.length_map]; exact h
  rw [List.getD_eq_getElem?_getD, List.getElem?_eq_getElem h1, Option.getD_some,
    List.getElem_map]

/-- The KD-tree branch picks an in-range index whose port is
haversine-minimal (chord-minimal implies haversine-minimal on the unit
sphere). -/
theorem kdQuery_min (ports : List Port) (lat lon : ℝ) (hne : ports ≠ []) :
    kdQuery (ports.map (fun p => sphVec p.lat p.lon)) (sphVec lat lon) <
        ports.length ∧
      ∀ q ∈ ports,
        haversine_km lon lat
            (ports.getD (kdQuery (ports.map (fun p => sphVec p.lat p.lon))
              (sphVec lat lon)) ⟨"", none, none, 0, 0⟩).lon
            (ports.getD (kdQuery (ports.map (fun p => sphVec p.lat p.lon))
              (sphVec lat lon)) ⟨"", none, none, 0, 0⟩).lat ≤
          haversine_km lon lat q.lon q.lat := by
  have hL : 0 < ports.length := List.length_pos.2 hne
  have hlen : (ports.map (fun p => sphVec p.lat p.lon)).length = ports.length :=
    List.length_map _ _
  have hidxa : kdQuery (ports.map (fun p => sphVec p.lat p.lon)) (sphVec lat lon) =
      argminIdx (fun i => sqDist3 (sphVec lat lon)
        ((ports.map (fun p => sphVec p.lat p.lon)).getD i (0, 0, 0)))
      ((ports.map (fun p => sphVec p.lat p.lon)).length - 1) := rfl
  have hidx : kdQuery (ports.map (fun p => sphVec p.lat p.lon)) (sphVec lat lon) <
      ports.length := by
    have h := argminIdx_le (fun i => sqDist3 (sphVec lat lon)
        ((ports.map (fun p => sphVec p.lat p.lon)).getD i (0, 0, 0)))
      ((ports.map (fun p => sphVec p.lat p.lon)).length - 1)
    rw [← hidxa] at h
    omega
  have hgetd : ports.getD (kdQuery (ports.map (fun p => sphVec p.lat p.lon))
      (sphVec lat lon)) ⟨"", none, none, 0, 0⟩ =
      ports[kdQuery (ports.map (fun p => sphVec p.lat p.lon)) (sphVec lat lon)] := by
    rw [List.getD_eq_getElem?_getD, List.getElem?_eq_getElem hidx, Option.getD_some]
  refine ⟨hidx, ?_⟩
  intro q hq
  obtain ⟨j, hj, hjq⟩ := List.mem_iff_getElem.1 hq
  have hmin := argminIdx_min (fun i => sqDist3 (sphVec lat lon)
      ((ports.map (fun p => sphVec p.lat p.lon)).getD i (0, 0, 0)))
    ((ports.map (fun p => sphVec p.lat p.lon)).length - 1) j (by omega)
  rw [← hidxa] at hmin
  simp only at hmin
  rw [coords_getD ports _ hidx, coords_getD ports j hj] at hmin
  have hm := hav_mono_of_sqDist3 hmin
  rw [hgetd, ← hjq]
  exact hm

/-- C9: `find_nearest` fails with the "No ports available" error exactly
when the port collection is empty, and for a nonempty collection it
returns a port record in both branches. -/
theorem c9_error_iff_empty (hasTree : Bool) (ports : List Port) (lat lon : ℝ) :
    (find_nearest hasTree ports lat lon = .error ("No ports available") ↔ ports = []) ∧
      (ports ≠ [] → ∃ r, find_nearest hasTree ports lat lon = .ok r) := by
  cases ports with
  | nil =>
    refine ⟨⟨fun _ => rfl, fun _ => rfl⟩, fun h => absurd rfl h⟩
  | cons p0 rest =>
    have hok : ∃ r, find_nearest hasTree (p0 :: rest) lat lon = .ok r := by
      unfold find_nearest
      rw [if_neg (by simp)]
      cases hasTree with
      | false =>
        rw [if_pos rfl]
        obtain ⟨bd, bp, hls, hbd, hmem, hmin⟩ := linearScan_spec lat lon p0 rest
        rw [hls]
        exact ⟨⟨bp.name, bp.country, bp.unlocode, bp.lat, bp.lon, round2 bd⟩, rfl⟩
      | true =>
        rw [if_neg (by simp)]
        exact ⟨_, rfl⟩
    refine ⟨⟨fun h => ?_, fun h => (by simp at h)⟩, fun _ => hok⟩
    obtain ⟨r, hr⟩ := hok
    rw [hr] at h
    exact absurd h (by simp)

/-- Witness for C9 with a singleton port list in the linear-scan branch. -/
theorem c9_witness :
    (find_nearest false [⟨"P", none, none, 0, 0⟩] 1 1 =
        .error ("No ports available") ↔ ([⟨"P", none, none, 0, 0⟩] : List Port) = []) ∧
      (([⟨"P", none, none, 0, 0⟩] : List Port) ≠ [] →
        ∃ r, find_nearest false [⟨"P", none, none, 0, 0⟩] 1 1 = .ok r) :=
  c9_error_iff_empty false [⟨"P", none, none, 0, 0⟩] 1 1

/-- C6: for a nonempty port collection, `find_nearest` (in both the
KD-tree and the linear-scan branch) returns a stored port whose haversine
distance to the query is minimal over all stored ports, and reports as
`distance_km` the rounded haversine distance to that port (never the
Euclidean chord distance used internally by the KD-tree). -/
theorem c6_nearest_is_haversine_min (hasTree : Bool) (ports : List Port) (lat lon : ℝ)
    (hne : ports ≠ []) :
    ∃ (r : FoundPort) (p : Port), p ∈ ports ∧
      find_nearest hasTree ports lat lon = .ok r ∧
      r.name = p.name ∧ r.lat = p.lat ∧ r.lon = p.lon ∧
      r.distance_km = round2 (haversine_km lon lat p.lon p.lat) ∧
      ∀ q ∈ ports, haversine_km lon lat p.lon p.lat ≤ haversine_km lon lat q.lon q.lat := by
  cases ports with
  | nil => exact absurd rfl hne
  | cons p0 rest =>
    unfold find_nearest
    rw [if_neg (by simp)]
    cases hasTree with
    | false =>
      rw [if_pos rfl]
      obtain ⟨bd, bp, hls, hbd, hmem, hmin⟩ := linearScan_spec lat lon p0 rest
      rw [hls]
      refine ⟨⟨bp.name, bp.country, bp.unlocode, bp.lat, bp.lon, round2 bd⟩, bp, hmem,
        rfl, rfl, rfl, rfl, by rw [hbd], ?_⟩
      intro q hq
      have := hmin q hq
      linarith [hmin q hq, le_of_eq hbd.symm]
    | true =>
      rw [if_neg (by simp)]
      obtain ⟨hidx, hmin⟩ := kdQuery_min (p0 :: rest) lat lon (by simp)
      set pb := (p0 :: rest).getD
        (kdQuery ((p0 :: rest).map (fun p => sphVec p.lat p.lon)) (sphVec lat lon))
        ⟨"", none, none, 0, 0⟩ with hpb
      refine ⟨⟨pb.name, pb.country, pb.unlocode, pb.lat, pb.lon,
        round2 (haversine_km lon lat pb.lon pb.lat)⟩, pb, ?_, ?_, rfl, rfl, rfl, rfl, hmin⟩
      · rw [hpb, List.getD_eq_getElem?_getD, List.getElem?_eq_getElem hidx,
          Option.getD_some]
        exact List.getElem_mem hidx
      · rw [hpb]

/-- Witness for C6 with a concrete two-port list in the KD-tree branch. -/
theorem c6_witness :
    ∃ (r : FoundPort) (p : Port), p ∈ ([⟨"A", none, none, 0, 0⟩,
        ⟨"B", none, none, 10, 10⟩] : List Port) ∧
      find_nearest true [⟨"A", none, none, 0, 0⟩, ⟨"B", none, none, 10, 10⟩] 1 1 =
        .ok r ∧
      r.name = p.name ∧ r.lat = p.lat ∧ r.lon = p.lon ∧
      r.distance_km = round2 (haversine_km 1 1 p.lon p.lat) ∧
      ∀ q ∈ ([⟨"A", none, none, 0, 0⟩, ⟨"B", none, none, 10, 10⟩] : List Port),
        haversine_km 1 1 p.lon p.lat ≤ haversine_km 1 1 q.lon q.lat :=
  c6_nearest_is_haversine_min true [⟨"A", none, none, 0, 0⟩, ⟨"B", none, none, 10, 10⟩]
    1 1 (by simp)

/-! ### The A* search (`a_star`, app.py lines 138-170)

The search is embedded generically over a linear ordered field `K` with
the node-to-node distance as a parameter: in the program `K = ℝ` and
`dist p q = haversine lon[p.1] lat[p.2] lon[q.1] lat[q.2]` (`a_star`
below); the generic form also runs over `K = ℚ` to evaluate concrete
searches whose haversine values are exact rational multiples of a common
unit, which a simulation lemma transports back to the real instance. -/

/-- The neighbour offsets `(di, dj)` of the expansion loop, in source
order (app.py line 157). -/
def dirs : List (ℤ × ℤ) :=
  [(0, 1), (0, -1), (1, 0), (-1, 0), (1, 1), (1, -1), (-1, 1), (-1, -1)]

/-- The fixed inputs of one `a_star` invocation (the grid sizes are
`len(lon)`, `len(lat)`; `start`/`goal` are the start and end nodes). -/
structure AParams (K : Type) where
  W : ℕ
  H : ℕ
  land : ℕ → ℕ → Bool
  speed : K
  swh : ℕ → ℕ → K
  ws : ℕ → ℕ → K
  dist : Node → Node → K
  start : Node
  goal : Node

/-- The ephemeral state of one `a_star` invocation: the `open_set` heap as
a list of `(f, node)` entries, the `g_score` map (`⊤` for `np.inf`), and
the `came_from` predecessor map. -/
structure AState (K : Type) where
  openSet : List (WithTop K × Node)
  gScore : Node → WithTop K
  cameFrom : Node → Option Node

/-- Lexicographic order on heap entries: Python compares the
`(f, (i, j))` tuples componentwise. -/
def entLE {α : Type} [LinearOrder α] (a b : α × Node) : Prop :=
  a.1 < b.1 ∨ (a.1 = b.1 ∧ (a.2.1 < b.2.1 ∨ (a.2.1 = b.2.1 ∧ a.2.2 ≤ b.2.2)))

instance {α : Type} [LinearOrder α] (a b : α × Node) : Decidable (entLE a b) :=
  inferInstanceAs (Decidable (_ ∨ _))

/-- `heapq.heappop`: remove and return the least entry in the tuple
order.  On the states the search reaches, queued nodes are pairwise
distinct (a node is pushed only when absent from the queue), so the least
entry is unique and this is exactly the heap pop. -/
def minExtract {α : Type} [LinearOrder α] :
    List (α × Node) → Option ((α × Node) × List (α × Node))
  | [] => none
  | e :: es =>
    match minExtract es with
    | none => some (e, es)
    | some (m, rest) => if entLE e m then some (e, es) else some (m, e :: rest)

/-- The path reconstruction loop (app.py lines 151-154): follow
`came_from` links appending each node, then append the start node and
reverse.  `fuel` bounds the unbounded `while`; exhaustion yields `none`. -/
def reconstructPath (cameFrom : Node → Option Node) (start : Node) :
    ℕ → Node → List Node → Option (List Node)
  | 0, _, _ => none
  | fuel + 1, current, acc =>
    match cameFrom current with
    | some m => reconstructPath cameFrom start fuel m (acc ++ [current])
    | none => some ((acc ++ [start]).reverse)

/-- One iteration of the neighbour loop (app.py lines 157-169): bounds and
land checks on `(ni, nj) = (i + di, j + dj)`, the edge cost
`base_dist * weather_factor`, the strict improvement test
`tentative < g_score.get(neighbor, inf)`, the `came_from`/`g_score`
updates, and the push of `(f_score[neighbor], neighbor)` guarded by
absence from the current `open_set` (the `f_score[neighbor]` assignment
of line 167 is written and immediately read by the push, so it is
inlined). -/
def expandDir {K : Type} [LinearOrderedField K] (P : AParams K) (cur : Node)
    (s : AState K) (d : ℤ × ℤ) : AState K :=
  if 0 ≤ (cur.1 : ℤ) + d.1 ∧ (cur.1 : ℤ) + d.1 < (P.W : ℤ) ∧
      0 ≤ (cur.2 : ℤ) + d.2 ∧ (cur.2 : ℤ) + d.2 < (P.H : ℤ) ∧
      P.land ((cur.2 : ℤ) + d.2).toNat ((cur.1 : ℤ) + d.1).toNat = false then
    let nb : Node := (((cur.1 : ℤ) + d.1).toNat, ((cur.2 : ℤ) + d.2).toNat)
    let cost : K := P.dist cur nb * weather_factor (P.swh nb.2 nb.1) (P.ws nb.2 nb.1)
    let tentative : WithTop K := s.gScore cur + ((cost / P.speed : K) : WithTop K)
    if tentative < s.gScore nb then
      { openSet :=
          if nb ∈ s.openSet.map (fun e => e.2) then s.openSet
          else s.openSet ++ [(tentative + ((P.dist nb P.goal : K) : WithTop K), nb)],
        gScore := fun n => if n = nb then tentative else s.gScore n,
        cameFrom := fun n => if n = nb then some cur else s.cameFrom n }
    else s
  else s

/-- The possible outcomes of one iteration of the main `while open_set`
loop: terminate with a result, or continue with a new state. -/
inductive StepRes (K : Type) where
  | halt (r : Option (List Node))
  | cont (s : AState K)

/-- One iteration of the main loop (app.py lines 148-169): pop the least
entry; if it is the goal, reconstruct and return; otherwise expand the
eight neighbour offsets in order. -/
def aStarStep {K : Type} [LinearOrderedField K] (P : AParams K) (reconFuel : ℕ)
    (s : AState K) : StepRes K :=
  match minExtract s.openSet with
  | none => .halt none
  | some ((_, current), rest) =>
    if current = P.goal then
      .halt (reconstructPath s.cameFrom P.start reconFuel current [])
    else
      .cont (dirs.foldl (expandDir P current) ⟨rest, s.gScore, s.cameFrom⟩)

/-- The main loop with fuel; an exhausted frontier returns `None`
(app.py line 170). -/
def aStarGo {K : Type} [LinearOrderedField K] (P : AParams K) :
    ℕ → AState K → Option (List Node)
  | 0, _ => none
  | fuel + 1, s =>
    match aStarStep P (fuel + 1) s with
    | .halt r => r
    | .cont s' => aStarGo P fuel s'

/-- Iterate `aStarStep` a fixed number of times, to inspect intermediate
search states of a concrete run. -/
def runSteps {K : Type} [LinearOrderedField K] (P : AParams K) (reconFuel : ℕ) :
    ℕ → AState K → StepRes K
  | 0, s => .cont s
  | n + 1, s =>
    match aStarStep P reconFuel s with
    | .halt r => .halt r
    | .cont s' => runSteps P reconFuel n s'

/-- The initial search state (app.py lines 143-146): `open_set =
[(0, start)]` (the literal priority 0), `g_score` all `inf` except
`g_score[start] = 0`, empty `came_from`.  (The `f_score[start]` value of
line 146 is computed but never read: the single initial heap entry
carries the literal 0.) -/
def aStarInit {K : Type} [LinearOrderedField K] (start : Node) : AState K :=
  ⟨[((0 : WithTop K), start)],
   fun n => if n = start then (0 : WithTop K) else ⊤,
   fun _ => none⟩

/-- `a_star` (app.py lines 138-170) over the reals: the distance is the
haversine of the coordinate-array values, the heuristic the haversine to
the goal coordinates. -/
noncomputable def a_star (start goal : Node) (lon lat : ℕ → ℝ) (W H : ℕ)
    (land : ℕ → ℕ → Bool) (speed : ℝ) (swh ws : ℕ → ℕ → ℝ) (fuel : ℕ) :
    Option (List Node) :=
  aStarGo
    ⟨W, H, land, speed, swh, ws,
      fun p q => haversine (lon p.1) (lat p.2) (lon q.1) (lat q.2), start, goal⟩
    fuel (aStarInit start)

/-- The heap pop removes one entry and keeps a sublist of the rest. -/
theorem minExtract_sublist {α : Type} [LinearOrder α] :
    ∀ {l : List (α × Node)} {m : α × Node} {rest : List (α × Node)},
      minExtract l = some (m, rest) → rest.Sublist l ∧ m ∈ l := by
  intro l
  induction l with
  | nil => intro m rest h; simp [minExtract] at h
  | cons e es ih =>
    intro m rest h
    unfold minExtract at h
    cases hes : minExtract es with
    | none =>
      rw [hes] at h
      simp only [Option.some.injEq, Prod.mk.injEq] at h
      obtain ⟨h1, h2⟩ := h
      subst h1; subst h2
      exact ⟨List.Sublist.cons e (List.Sublist.refl es), List.mem_cons_self e es⟩
    | some pr =>
      obtain ⟨m', rest'⟩ := pr
      rw [hes] at h
      dsimp only at h
      obtain ⟨hsub, hmem⟩ := ih hes
      by_cases hc : entLE e m'
      · rw [if_pos hc] at h
        simp only [Option.some.injEq, Prod.mk.injEq] at h
        obtain ⟨h1, h2⟩ := h
        subst h1; subst h2
        exact ⟨List.Sublist.cons e (List.Sublist.refl es), List.mem_cons_self e es⟩
      · rw [if_neg hc] at h
        simp only [Option.some.injEq, Prod.mk.injEq] at h
        obtain ⟨h1, h2⟩ := h
        subst h1; subst h2
        exact ⟨List.Sublist.cons₂ e hsub, List.mem_cons_of_mem e hmem⟩

/-- One neighbour expansion only ever appends entries. -/
theorem expandDir_open_mono {K : Type} [LinearOrderedField K] (P : AParams K)
    (cur : Node) (s : AState K) (d : ℤ × ℤ) :
    ∀ e ∈ s.openSet, e ∈ (expandDir P cur s d).openSet := by
  intro e he
  unfold expandDir
  split
  · dsimp only
    split
    · dsimp only
      by_cases hmem : (((cur.1 : ℤ) + d.1).toNat, ((cur.2 : ℤ) + d.2).toNat) ∈
          s.openSet.map (fun e => e.2)
      · simp only [if_pos hmem]
        exact he
      · simp only [if_neg hmem]
        exact List.mem_append_left _ he
    · exact he
  · exact he

/-- The heap pop is a permutation: the original queue is the popped entry
plus the remainder. -/
theorem minExtract_perm {α : Type} [LinearOrder α] :
    ∀ {l : List (α × Node)} {m : α × Node} {rest : List (α × Node)},
      minExtract l = some (m, rest) → l.Perm (m :: rest) := by
  intro l
  induction l with
  | nil => intro m rest h; simp [minExtract] at h
  | cons e es ih =>
    intro m rest h
    unfold minExtract at h
    cases hes : minExtract es with
    | none =>
      rw [hes] at h
      simp only [Option.some.injEq, Prod.mk.injEq] at h
      obtain ⟨h1, h2⟩ := h
      subst h1; subst h2
      exact List.Perm.refl _
    | some pr =>
      obtain ⟨m', rest'⟩ := pr
      rw [hes] at h
      dsimp only at h
      have hperm := ih hes
      by_cases hc : entLE e m'
      · rw [if_pos hc] at h
        simp only [Option.some.injEq, Prod.mk.injEq] at h
        obtain ⟨h1, h2⟩ := h
        subst h1; subst h2
        exact List.Perm.refl _
      · rw [if_neg hc] at h
        simp only [Option.some.injEq, Prod.mk.injEq] at h
        obtain ⟨h1, h2⟩ := h
        subst h1; subst h2
        exact List.Perm.trans (hperm.cons e) (List.Perm.swap m' e rest')

/-- One neighbour expansion with a nonzero offset never pushes a node that
is already on the frontier, never changes an existing entry's priority,
and never pushes the node being expanded. -/
theorem expandDir_no_repush {K : Type} [LinearOrderedField K] (P : AParams K)
    (cur : Node) (s : AState K) (d : ℤ × ℤ) (hd : d ≠ (0, 0)) :
    ∀ e ∈ (expandDir P cur s d).openSet,
      e ∈ s.openSet ∨ (e.2 ∉ s.openSet.map (fun x => x.2) ∧ e.2 ≠ cur) := by
  intro e he
  unfold expandDir at he
  by_cases hcond : 0 ≤ (cur.1 : ℤ) + d.1 ∧ (cur.1 : ℤ) + d.1 < (P.W : ℤ) ∧
      0 ≤ (cur.2 : ℤ) + d.2 ∧ (cur.2 : ℤ) + d.2 < (P.H : ℤ) ∧
      P.land ((cur.2 : ℤ) + d.2).toNat ((cur.1 : ℤ) + d.1).toNat = false
  · rw [if_pos hcond] at he
    dsimp only at he
    split at he
    · dsimp only at he
      by_cases hmem : (((cur.1 : ℤ) + d.1).toNat, ((cur.2 : ℤ) + d.2).toNat) ∈
          s.openSet.map (fun e => e.2)
      · simp only [if_pos hmem] at he
        exact Or.inl he
      · simp only [if_neg hmem] at he
        rcases List.mem_append.1 he with h | h
        · exact Or.inl h
        · simp only [List.mem_singleton] at h
          subst h
          refine Or.inr ⟨hmem, ?_⟩
          obtain ⟨hc1, hc2, hc3, hc4, _⟩ := hcond
          intro heq
          apply hd
          have e1 : (((cur.1 : ℤ) + d.1).toNat : ℤ) = (cur.1 : ℤ) + d.1 := by omega
          have e2 : (((cur.2 : ℤ) + d.2).toNat : ℤ) = (cur.2 : ℤ) + d.2 := by omega
          have hfst : ((cur.1 : ℤ) + d.1).toNat = cur.1 := congrArg Prod.fst heq
          have hsnd : ((cur.2 : ℤ) + d.2).toNat = cur.2 := congrArg Prod.snd heq
          have hd1 : d.1 = 0 := by omega
          have hd2 : d.2 = 0 := by omega
          exact Prod.ext hd1 hd2
    · exact Or.inl he
  · rw [if_neg hcond] at he
    exact Or.inl he

/-- One neighbour expansion preserves distinctness of the queued nodes. -/
theorem expandDir_nodup {K : Type} [LinearOrderedField K] (P : AParams K)
    (cur : Node) (s : AState K) (d : ℤ × ℤ)
    (hnd : (s.openSet.map (fun e => e.2)).Nodup) :
    ((expandDir P cur s d).openSet.map (fun e => e.2)).Nodup := by
  unfold expandDir
  split
  · dsimp only
    split
    · dsimp only
      by_cases hmem : (((cur.1 : ℤ) + d.1).toNat, ((cur.2 : ℤ) + d.2).toNat) ∈
          s.openSet.map (fun e => e.2)
      · simp only [if_pos hmem]
        exact hnd
      · simp only [if_neg hmem]
        rw [List.map_append]
        simp only [List.map_cons, List.map_nil]
        rw [List.nodup_append]
        exact ⟨hnd, List.nodup_singleton _, by
          intro a ha hb
          simp only [List.mem_singleton] at hb
          subst hb
          exact hmem ha⟩
    · exact hnd
  · exact hnd

/-- The whole expansion over a list of nonzero offsets: entries either
survive unchanged or are for nodes absent from the frontier and distinct
from the expanded node, and node-distinctness is preserved. -/
theorem foldExpand_no_repush {K : Type} [LinearOrderedField K] (P : AParams K)
    (cur : Node) :
    ∀ (ds : List (ℤ × ℤ)), (∀ d ∈ ds, d ≠ ((0 : ℤ), (0 : ℤ))) → ∀ (s : AState K),
      (∀ e ∈ (ds.foldl (expandDir P cur) s).openSet,
        e ∈ s.openSet ∨ (e.2 ∉ s.openSet.map (fun x => x.2) ∧ e.2 ≠ cur)) ∧
      ((s.openSet.map (fun e => e.2)).Nodup →
        ((ds.foldl (expandDir P cur) s).openSet.map (fun e => e.2)).Nodup) := by
  intro ds
  induction ds with
  | nil => intro _ s; exact ⟨fun e he => Or.inl he, fun h => h⟩
  | cons d rest ih =>
    intro hz s
    rw [List.foldl_cons]
    have hzd : d ≠ ((0 : ℤ), (0 : ℤ)) := hz d (List.mem_cons_self d rest)
    have hzr : ∀ x ∈ rest, x ≠ ((0 : ℤ), (0 : ℤ)) :=
      fun x hx => hz x (List.mem_cons_of_mem d hx)
    obtain ⟨ih1, ih2⟩ := ih hzr (expandDir P cur s d)
    constructor
    · intro e he
      rcases ih1 e he with h | ⟨h, hne⟩
      · exact expandDir_no_repush P cur s d hzd e h
      · refine Or.inr ⟨?_, hne⟩
        intro hmem
        exact h (by
          obtain ⟨x, hx, hx2⟩ := List.mem_map.1 hmem
          exact List.mem_map.2 ⟨x, expandDir_open_mono P cur s d x hx, hx2⟩)
    · intro hnd
      exact ih2 (expandDir_nodup P cur s d hnd)

/-- C2 amended: when a node's g-score improves while the node is already
on the frontier, the node is NOT pushed again — the frontier keeps the
single existing entry with its old priority, a `(f, node)` entry is only
pushed for nodes absent from the frontier, and the queued nodes remain
pairwise distinct; popped entries are always processed in full (the code
has no stale-skip on pop). -/
theorem c2_amended_no_repush {K : Type} [LinearOrderedField K] (P : AParams K)
    (rf : ℕ) (s s' : AState K) (hstep : aStarStep P rf s = .cont s')
    (hnd : (s.openSet.map (fun e => e.2)).Nodup) :
    (s'.openSet.map (fun e => e.2)).Nodup ∧
      ∀ e ∈ s'.openSet, e ∈ s.openSet ∨ e.2 ∉ s.openSet.map (fun x => x.2) := by
  unfold aStarStep at hstep
  cases hme : minExtract s.openSet with
  | none => rw [hme] at hstep; exact absurd hstep (by simp)
  | some pr =>
    obtain ⟨⟨p, current⟩, rest⟩ := pr
    rw [hme] at hstep
    dsimp only at hstep
    by_cases hgoal : current = P.goal
    · rw [if_pos hgoal] at hstep
      exact absurd hstep (by simp)
    · rw [if_neg hgoal] at hstep
      simp only [StepRes.cont.injEq] at hstep
      have hperm := minExtract_perm hme
      obtain ⟨hsub, hm⟩ := minExtract_sublist hme
      have hndrest : (rest.map (fun e => e.2)).Nodup :=
        hnd.sublist (hsub.map (fun e => e.2))
      obtain ⟨h1, h2⟩ := foldExpand_no_repush P current dirs (by decide)
        ⟨rest, s.gScore, s.cameFrom⟩
      subst hstep
      constructor
      · exact h2 hndrest
      · intro e he
        rcases h1 e he with h | ⟨h, hne⟩
        · exact Or.inl (hsub.mem h)
        · right
          intro hmem
          -- e.2 is on the original frontier, which is a permutation of the
          -- popped entry plus `rest`; it is not in `rest`, so it is the
          -- popped node `current` — but freshly pushed nodes are neighbours
          -- of `current`, never `current` itself.
          have hmem2 : e.2 ∈ ((p, current) :: rest).map (fun x => x.2) :=
            (hperm.map (fun x => x.2)).mem_iff.1 hmem
          simp only [List.map_cons, List.mem_cons] at hmem2
          rcases hmem2 with hcur | hrest
          · exact hne hcur
          · exact h hrest

/-! ### Transport of a search from exact rational data to the reals

On the counterexample grids every haversine value equals `degKm` times a
rational number, weather and speed are rational, and the search only
compares and adds values of the form `degKm * q`: the run over `ℝ`
coincides with the computable run over `ℚ` scaled by `degKm`. -/

/-- Scaling of a rational by a positive real unit. -/
noncomputable def phiR (u : ℝ) (q : ℚ) : ℝ := u * (q : ℝ)

/-- `phiR` extended to the `np.inf`-capped values. -/
noncomputable def phiT (u : ℝ) : WithTop ℚ → WithTop ℝ := WithTop.map (phiR u)

/-- `phiR` applied to a heap entry's priority. -/
noncomputable def entMap (u : ℝ) (e : WithTop ℚ × Node) : WithTop ℝ × Node :=
  (phiT u e.1, e.2)

/-- The real search state is the `u`-scaled image of the rational one. -/
def SRel (u : ℝ) (sR : AState ℝ) (sQ : AState ℚ) : Prop :=
  sR.openSet = sQ.openSet.map (entMap u) ∧
    (∀ n, sR.gScore n = phiT u (sQ.gScore n)) ∧
    sR.cameFrom = sQ.cameFrom

/-- The real parameters are the `u`-scaled image of the rational ones
(distances scaled, weather and speed cast unscaled). -/
def PRel (u : ℝ) (PR : AParams ℝ) (PQ : AParams ℚ) : Prop :=
  PR.W = PQ.W ∧ PR.H = PQ.H ∧ PR.land = PQ.land ∧
    PR.speed = (PQ.speed : ℝ) ∧
    (∀ j i, PR.swh j i = (PQ.swh j i : ℝ)) ∧
    (∀ j i, PR.ws j i = (PQ.ws j i : ℝ)) ∧
    (∀ p q, PR.dist p q = phiR u (PQ.dist p q)) ∧
    PR.start = PQ.start ∧ PR.goal = PQ.goal

theorem phiR_lt {u : ℝ} (hu : 0 < u) {a b : ℚ} : phiR u a < phiR u b ↔ a < b := by
  unfold phiR
  rw [mul_lt_mul_left hu, Rat.cast_lt]

theorem phiR_inj {u : ℝ} (hu : 0 < u) {a b : ℚ} : phiR u a = phiR u b ↔ a = b := by
  unfold phiR
  constructor
  · intro h
    exact_mod_cast mul_left_cancel₀ (ne_of_gt hu) h
  · intro h; rw [h]

theorem phiR_add {u : ℝ} (a b : ℚ) : phiR u (a + b) = phiR u a + phiR u b := by
  unfold phiR
  push_cast
  ring

theorem phiT_top {u : ℝ} : phiT u ⊤ = ⊤ := rfl

theorem phiT_coe {u : ℝ} (a : ℚ) : phiT u (a : WithTop ℚ) = ((phiR u a : ℝ) : WithTop ℝ) :=
  rfl

theorem phiT_lt {u : ℝ} (hu : 0 < u) (a b : WithTop ℚ) :
    phiT u a < phiT u b ↔ a < b := by
  cases a with
  | top =>
    cases b with
    | top => simp [phiT_top]
    | coe b => simp [phiT_top, phiT_coe]
  | coe a =>
    cases b with
    | top =>
      show phiT u (a : WithTop ℚ) < phiT u ⊤ ↔ (a : WithTop ℚ) < ⊤
      rw [phiT_top, phiT_coe]
      simp [WithTop.coe_lt_top]
    | coe b =>
      show phiT u (a : WithTop ℚ) < phiT u (b : WithTop ℚ) ↔
        (a : WithTop ℚ) < (b : WithTop ℚ)
      rw [phiT_coe, phiT_coe, WithTop.coe_lt_coe, WithTop.coe_lt_coe]
      exact phiR_lt hu

theorem phiT_inj {u : ℝ} (hu : 0 < u) (a b : WithTop ℚ) :
    phiT u a = phiT u b ↔ a = b := by
  cases a with
  | top =>
    cases b with
    | top => simp
    | coe b =>
      show phiT u ⊤ = phiT u (b : WithTop ℚ) ↔ (⊤ : WithTop ℚ) = (b : WithTop ℚ)
      rw [phiT_top, phiT_coe]
      simp
  | coe a =>
    cases b with
    | top =>
      show phiT u (a : WithTop ℚ) = phiT u ⊤ ↔ (a : WithTop ℚ) = (⊤ : WithTop ℚ)
      rw [phiT_top, phiT_coe]
      simp
    | coe b =>
      show phiT u (a : WithTop ℚ) = phiT u (b : WithTop ℚ) ↔
        (a : WithTop ℚ) = (b : WithTop ℚ)
      rw [phiT_coe, phiT_coe]
      simp only [WithTop.coe_eq_coe]
      exact phiR_inj hu

theorem phiT_add_coe {u : ℝ} (x : WithTop ℚ) (c : ℚ) :
    phiT u (x + (c : WithTop ℚ)) = phiT u x + ((phiR u c : ℝ) : WithTop ℝ) := by
  cases x with
  | top =>
    show phiT u (⊤ + (c : WithTop ℚ)) = phiT u ⊤ + _
    rw [top_add, phiT_top, top_add]
  | coe a =>
    show phiT u ((a : WithTop ℚ) + (c : WithTop ℚ)) = phiT u (a : WithTop ℚ) + _
    rw [← WithTop.coe_add, phiT_coe, phiT_coe, phiR_add, WithTop.coe_add]

theorem entLE_map {u : ℝ} (hu : 0 < u) (a b : WithTop ℚ × Node) :
    entLE (entMap u a) (entMap u b) ↔ entLE a b := by
  unfold entLE entMap
  rw [phiT_lt hu, phiT_inj hu]

theorem minExtract_map {u : ℝ} (hu : 0 < u) :
    ∀ l : List (WithTop ℚ × Node),
      minExtract (l.map (entMap u)) =
        Option.map (fun pr => (entMap u pr.1, pr.2.map (entMap u))) (minExtract l) := by
  intro l
  induction l with
  | nil => rfl
  | cons e es ih =>
    rw [List.map_cons]
    unfold minExtract
    rw [ih]
    cases hes : minExtract es with
    | none => rfl
    | some pr =>
      obtain ⟨m, rest⟩ := pr
      simp only [Option.map_some']
      by_cases hc : entLE e m
      · rw [if_pos ((entLE_map hu e m).2 hc), if_pos hc]
        rfl
      · rw [if_neg (fun h => hc ((entLE_map hu e m).1 h)), if_neg hc]
        rfl

theorem expandDir_rel {u : ℝ} (hu : 0 < u) {PR : AParams ℝ} {PQ : AParams ℚ}
    (hP : PRel u PR PQ) (cur : Node) {sR : AState ℝ} {sQ : AState ℚ}
    (hS : SRel u sR sQ) (d : ℤ × ℤ) :
    SRel u (expandDir PR cur sR d) (expandDir PQ cur sQ d) := by
  obtain ⟨hW, hH, hland, hspeed, hswh, hws, hdist, hstart, hgoal⟩ := hP
  obtain ⟨hopen, hg, hcf⟩ := hS
  unfold expandDir
  rw [hW, hH, hland]
  by_cases hcond : 0 ≤ (cur.1 : ℤ) + d.1 ∧ (cur.1 : ℤ) + d.1 < (PQ.W : ℤ) ∧
      0 ≤ (cur.2 : ℤ) + d.2 ∧ (cur.2 : ℤ) + d.2 < (PQ.H : ℤ) ∧
      PQ.land ((cur.2 : ℤ) + d.2).toNat ((cur.1 : ℤ) + d.1).toNat = false
  · rw [if_pos hcond, if_pos hcond]
    dsimp only
    have hcost : PR.dist cur (((cur.1 : ℤ) + d.1).toNat, ((cur.2 : ℤ) + d.2).toNat) *
        weather_factor (PR.swh ((cur.2 : ℤ) + d.2).toNat ((cur.1 : ℤ) + d.1).toNat)
          (PR.ws ((cur.2 : ℤ) + d.2).toNat ((cur.1 : ℤ) + d.1).toNat) / PR.speed =
        phiR u (PQ.dist cur (((cur.1 : ℤ) + d.1).toNat, ((cur.2 : ℤ) + d.2).toNat) *
          weather_factor (PQ.swh ((cur.2 : ℤ) + d.2).toNat ((cur.1 : ℤ) + d.1).toNat)
            (PQ.ws ((cur.2 : ℤ) + d.2).toNat ((cur.1 : ℤ) + d.1).toNat) / PQ.speed) := by
      rw [hdist, hspeed, hswh, hws]
      unfold phiR weather_factor
      push_cast
      ring
    have htent : sR.gScore cur +
        ((PR.dist cur (((cur.1 : ℤ) + d.1).toNat, ((cur.2 : ℤ) + d.2).toNat) *
          weather_factor (PR.swh ((cur.2 : ℤ) + d.2).toNat ((cur.1 : ℤ) + d.1).toNat)
            (PR.ws ((cur.2 : ℤ) + d.2).toNat ((cur.1 : ℤ) + d.1).toNat) / PR.speed : ℝ) :
          WithTop ℝ) =
        phiT u (sQ.gScore cur +
          ((PQ.dist cur (((cur.1 : ℤ) + d.1).toNat, ((cur.2 : ℤ) + d.2).toNat) *
            weather_factor (PQ.swh ((cur.2 : ℤ) + d.2).toNat ((cur.1 : ℤ) + d.1).toNat)
              (PQ.ws ((cur.2 : ℤ) + d.2).toNat ((cur.1 : ℤ) + d.1).toNat) / PQ.speed : ℚ) :
            WithTop ℚ)) := by
      rw [phiT_add_coe, hg cur, hcost]
    have hmemiff : ((((cur.1 : ℤ) + d.1).toNat, ((cur.2 : ℤ) + d.2).toNat) ∈
          sR.openSet.map (fun e => e.2)) ↔
        ((((cur.1 : ℤ) + d.1).toNat, ((cur.2 : ℤ) + d.2).toNat) ∈
          sQ.openSet.map (fun e => e.2)) := by
      rw [hopen, List.map_map]
      rfl
    by_cases himp : sQ.gScore cur +
        ((PQ.dist cur (((cur.1 : ℤ) + d.1).toNat, ((cur.2 : ℤ) + d.2).toNat) *
          weather_factor (PQ.swh ((cur.2 : ℤ) + d.2).toNat ((cur.1 : ℤ) + d.1).toNat)
            (PQ.ws ((cur.2 : ℤ) + d.2).toNat ((cur.1 : ℤ) + d.1).toNat) / PQ.speed : ℚ) :
          WithTop ℚ) <
        sQ.gScore (((cur.1 : ℤ) + d.1).toNat, ((cur.2 : ℤ) + d.2).toNat)
    · rw [if_pos himp, if_pos (by
        rw [htent, hg]
        exact (phiT_lt hu _ _).2 himp)]
      refine ⟨?_, ?_, ?_⟩
      · by_cases hmem : ((((cur.1 : ℤ) + d.1).toNat, ((cur.2 : ℤ) + d.2).toNat) ∈
            sQ.openSet.map (fun e => e.2))
        · dsimp only
          rw [if_pos (hmemiff.2 hmem), if_pos hmem]
          exact hopen
        · dsimp only
          rw [if_neg (fun h => hmem (hmemiff.1 h)), if_neg hmem]
          rw [List.map_append, hopen]
          congr 1
          simp only [List.map_cons, List.map_nil, entMap]
          rw [hgoal, htent, hdist, phiT_add_coe, phiT_add_coe, phiT_add_coe]
      · intro n
        dsimp only
        by_cases hn : n = (((cur.1 : ℤ) + d.1).toNat, ((cur.2 : ℤ) + d.2).toNat)
        · rw [if_pos hn, if_pos hn, htent]
        · rw [if_neg hn, if_neg hn]
          exact hg n
      · dsimp only
        rw [hcf]
    · rw [if_neg himp, if_neg (by
        rw [htent, hg]
        intro h
        exact himp ((phiT_lt hu _ _).1 h))]
      exact ⟨hopen, hg, hcf⟩
  · rw [if_neg hcond, if_neg hcond]
    exact ⟨hopen, hg, hcf⟩

/-- Relation between step outcomes. -/
def StepRel (u : ℝ) : StepRes ℝ → StepRes ℚ → Prop
  | .halt r1, .halt r2 => r1 = r2
  | .cont s1, .cont s2 => SRel u s1 s2
  | _, _ => False

theorem foldExpand_rel {u : ℝ} (hu : 0 < u) {PR : AParams ℝ} {PQ : AParams ℚ}
    (hP : PRel u PR PQ) (cur : Node) :
    ∀ (ds : List (ℤ × ℤ)) {sR : AState ℝ} {sQ : AState ℚ}, SRel u sR sQ →
      SRel u (ds.foldl (expandDir PR cur) sR) (ds.foldl (expandDir PQ cur) sQ) := by
  intro ds
  induction ds with
  | nil => intro sR sQ h; exact h
  | cons d rest ih =>
    intro sR sQ h
    rw [List.foldl_cons, List.foldl_cons]
    exact ih (expandDir_rel hu hP cur h d)

theorem aStarStep_rel {u : ℝ} (hu : 0 < u) {PR : AParams ℝ} {PQ : AParams ℚ}
    (hP : PRel u PR PQ) (rf : ℕ) {sR : AState ℝ} {sQ : AState ℚ}
    (hS : SRel u sR sQ) :
    StepRel u (aStarStep PR rf sR) (aStarStep PQ rf sQ) := by
  obtain ⟨hopen, hg, hcf⟩ := hS
  unfold aStarStep
  rw [hopen, minExtract_map hu]
  cases hme : minExtract sQ.openSet with
  | none =>
    dsimp only [Option.map_none']
    exact rfl
  | some pr =>
    obtain ⟨⟨p, current⟩, rest⟩ := pr
    dsimp only [Option.map_some']
    show StepRel u
      (if current = PR.goal then
        StepRes.halt (reconstructPath sR.cameFrom PR.start rf current [])
      else
        StepRes.cont (dirs.foldl (expandDir PR current)
          ⟨rest.map (entMap u), sR.gScore, sR.cameFrom⟩))
      (if current = PQ.goal then
        StepRes.halt (reconstructPath sQ.cameFrom PQ.start rf current [])
      else
        StepRes.cont (dirs.foldl (expandDir PQ current) ⟨rest, sQ.gScore, sQ.cameFrom⟩))
    obtain ⟨hW, hH, hland, hspeed, hswh, hws, hdist, hstart, hgoal⟩ := hP
    by_cases hcur : current = PQ.goal
    · rw [if_pos (by rw [hgoal]; exact hcur), if_pos hcur]
      show reconstructPath sR.cameFrom PR.start rf current [] =
        reconstructPath sQ.cameFrom PQ.start rf current []
      rw [hcf, hstart]
    · rw [if_neg (by rw [hgoal]; exact hcur), if_neg hcur]
      show SRel u (dirs.foldl (expandDir PR current) ⟨rest.map (entMap u), sR.gScore, sR.cameFrom⟩)
        (dirs.foldl (expandDir PQ current) ⟨rest, sQ.gScore, sQ.cameFrom⟩)
      exact foldExpand_rel hu ⟨hW, hH, hland, hspeed, hswh, hws, hdist, hstart, hgoal⟩
        current dirs ⟨rfl, hg, hcf⟩

theorem aStarGo_rel {u : ℝ} (hu : 0 < u) {PR : AParams ℝ} {PQ : AParams ℚ}
    (hP : PRel u PR PQ) :
    ∀ (fuel : ℕ) {sR : AState ℝ} {sQ : AState ℚ}, SRel u sR sQ →
      aStarGo PR fuel sR = aStarGo PQ fuel sQ := by
  intro fuel
  induction fuel with
  | zero => intro sR sQ _; rfl
  | succ f ih =>
    intro sR sQ hS
    unfold aStarGo
    have hstep := aStarStep_rel hu hP (f + 1) hS
    cases hR : aStarStep PR (f + 1) sR with
    | halt r1 =>
      cases hQ : aStarStep PQ (f + 1) sQ with
      | halt r2 =>
        rw [hR, hQ] at hstep
        exact hstep
      | cont s2 =>
        rw [hR, hQ] at hstep
        exact absurd hstep (by simp [StepRel])
    | cont s1 =>
      cases hQ : aStarStep PQ (f + 1) sQ with
      | halt r2 =>
        rw [hR, hQ] at hstep
        exact absurd hstep (by simp [StepRel])
      | cont s2 =>
        rw [hR, hQ] at hstep
        exact ih hstep

theorem runSteps_rel {u : ℝ} (hu : 0 < u) {PR : AParams ℝ} {PQ : AParams ℚ}
    (hP : PRel u PR PQ) (rf : ℕ) :
    ∀ (n : ℕ) {sR : AState ℝ} {sQ : AState ℚ}, SRel u sR sQ →
      StepRel u (runSteps PR rf n sR) (runSteps PQ rf n sQ) := by
  intro n
  induction n with
  | zero => intro sR sQ h; exact h
  | succ m ih =>
    intro sR sQ hS
    unfold runSteps
    have hstep := aStarStep_rel hu hP rf hS
    cases hR : aStarStep PR rf sR with
    | halt r1 =>
      cases hQ : aStarStep PQ rf sQ with
      | halt r2 =>
        rw [hR, hQ] at hstep
        exact hstep
      | cont s2 =>
        rw [hR, hQ] at hstep
        exact absurd hstep (by simp [StepRel])
    | cont s1 =>
      cases hQ : aStarStep PQ rf sQ with
      | halt r2 =>
        rw [hR, hQ] at hstep
        exact absurd hstep (by simp [StepRel])
      | cont s2 =>
        rw [hR, hQ] at hstep
        exact ih hstep

theorem aStarInit_rel (u : ℝ) (start : Node) :
    SRel u (aStarInit start) (aStarInit start) := by
  refine ⟨?_, ?_, rfl⟩
  · show [((0 : WithTop ℝ), start)] = [((0 : WithTop ℚ), start)].map (entMap u)
    simp only [List.map_cons, List.map_nil, entMap]
    have h0 : phiT u (0 : WithTop ℚ) = (0 : WithTop ℝ) := by
      show phiT u ((0 : ℚ) : WithTop ℚ) = _
      rw [phiT_coe]
      unfold phiR
      norm_num
    rw [h0]
  · intro n
    show (if n = start then (0 : WithTop ℝ) else ⊤) =
      phiT u (if n = start then (0 : WithTop ℚ) else ⊤)
    by_cases hn : n = start
    · rw [if_pos hn, if_pos hn]
      show _ = phiT u ((0 : ℚ) : WithTop ℚ)
      rw [phiT_coe]
      unfold phiR
      norm_num
    · rw [if_neg hn, if_neg hn, phiT_top]

/-! ### Concrete counterexample grids for C1 and C2

A 3-by-2 grid: longitudes 0, 1, 2 degrees; latitude row 0 at the equator
and row 1 at the pole (90 degrees).  Every haversine distance between
grid nodes is an exact rational multiple of `degKm`: one degree per
longitude step on the equator, 90 degrees between the rows, and zero
along the pole row. -/

/-- Longitude array `[0, 1, 2]` (degrees), clamped beyond the bound. -/
noncomputable def lonC1 : ℕ → ℝ := fun i => if i = 0 then 0 else if i = 1 then 1 else 2

/-- Latitude array `[0, 90]` (degrees), clamped beyond the bound. -/
noncomputable def latC1 : ℕ → ℝ := fun j => if j = 0 then 0 else 90

/-- Rational mirror of `lonC1`. -/
def lonQ1 : ℕ → ℚ := fun i => if i = 0 then 0 else if i = 1 then 1 else 2

/-- The exact haversine distances of the grid, in units of `degKm`. -/
def dqC1 : Node → Node → ℚ := fun p q =>
  if p.2 = 0 ∧ q.2 = 0 then |lonQ1 q.1 - lonQ1 p.1|
  else if p.2 ≠ 0 ∧ q.2 ≠ 0 then 0
  else 90

theorem lonC1_cast (i : ℕ) : lonC1 i = ((lonQ1 i : ℚ) : ℝ) := by
  unfold lonC1 lonQ1
  by_cases h0 : i = 0
  · rw [if_pos h0, if_pos h0]; norm_num
  · rw [if_neg h0, if_neg h0]
    by_cases h1 : i = 1
    · rw [if_pos h1, if_pos h1]; norm_num
    · rw [if_neg h1, if_neg h1]; norm_num

theorem lonQ1_bounds (i : ℕ) : 0 ≤ lonQ1 i ∧ lonQ1 i ≤ 2 := by
  unfold lonQ1
  by_cases h0 : i = 0
  · rw [if_pos h0]; norm_num
  · rw [if_neg h0]
    by_cases h1 : i = 1
    · rw [if_pos h1]; norm_num
    · rw [if_neg h1]; norm_num

/-- The haversine distances on the counterexample grid are exactly the
`degKm`-scaled rational distances. -/
theorem distC1_rel (p q : Node) :
    haversine (lonC1 p.1) (latC1 p.2) (lonC1 q.1) (latC1 q.2) =
      phiR degKm (dqC1 p q) := by
  unfold phiR dqC1 latC1
  by_cases hp : p.2 = 0
  · by_cases hq : q.2 = 0
    · rw [if_pos hp, if_pos hq, if_pos ⟨hp, hq⟩]
      have hb1 := lonQ1_bounds p.1
      have hb2 := lonQ1_bounds q.1
      rw [lonC1_cast, lonC1_cast, hav_equator (by
        rw [← Rat.cast_sub, ← Rat.cast_abs]
        have : |lonQ1 q.1 - lonQ1 p.1| ≤ 2 := by
          rw [abs_le]
          constructor <;> linarith
        calc ((|lonQ1 q.1 - lonQ1 p.1| : ℚ) : ℝ) ≤ ((2 : ℚ) : ℝ) := by
              exact_mod_cast this
          _ < 180 := by norm_num)]
      rw [← Rat.cast_sub, ← Rat.cast_abs]
    · rw [if_pos hp, if_neg hq, if_neg (by tauto), if_neg (by tauto)]
      rw [hav_mixed_up]
      norm_num
  · by_cases hq : q.2 = 0
    · rw [if_neg hp, if_pos hq, if_neg (by tauto), if_neg (by tauto)]
      rw [hav_mixed_down]
      norm_num
    · rw [if_neg hp, if_neg hq, if_neg (by tauto), if_pos ⟨hp, hq⟩]
      rw [hav_pole]
      norm_num

/-- Wave-height grid for the C1 counterexample: a severe storm cell on the
equator middle node `(i, j) = (1, 0)` (array entry `swh[0][1] = 1800`). -/
def swhC1Q : ℕ → ℕ → ℚ := fun j i => if j = 0 ∧ i = 1 then 1800 else 0

/-- The same storm grid over the reals. -/
noncomputable def swhC1R : ℕ → ℕ → ℝ := fun j i => ((swhC1Q j i : ℚ) : ℝ)

/-- Real-side A* parameters of the C1 counterexample: tanker speed 10,
start `(0,0)`, goal `(2,0)`, no land. -/
noncomputable def PC1R : AParams ℝ :=
  ⟨3, 2, waterMask, 10, swhC1R, zeroField,
    fun p q => haversine (lonC1 p.1) (latC1 p.2) (lonC1 q.1) (latC1 q.2), (0, 0), (2, 0)⟩

/-- Rational mirror of `PC1R`. -/
def PC1Q : AParams ℚ :=
  ⟨3, 2, waterMask, 10, swhC1Q, fun _ _ => 0, dqC1, (0, 0), (2, 0)⟩

theorem PC1_rel : PRel degKm PC1R PC1Q := by
  refine ⟨rfl, rfl, rfl, ?_, fun j i => rfl, fun j i => ?_, distC1_rel, rfl, rfl⟩
  · show (10 : ℝ) = ((10 : ℚ) : ℝ)
    norm_num
  · show zeroField j i = ((0 : ℚ) : ℝ)
    norm_num [zeroField]

set_option maxRecDepth 100000 in
/-- The C1 search evaluated exactly over the rationals: it returns the
straight equatorial path through the storm cell. -/
theorem c1_run_q :
    aStarGo PC1Q 9 (aStarInit ((0, 0) : Node)) = some [(0, 0), (1, 0), (2, 0)] :=
  of_decide_eq_true (by with_unfolding_all rfl)

/-- Cost of the straight equatorial path returned by the search in the C1
configuration: two storm-weighted equator edges. -/
theorem c1_cost_bad :
    pathCost lonC1 latC1 swhC1R zeroField 10 [(0, 0), (1, 0), (2, 0)] =
      degKm * 182 / 10 := by
  have e1 := distC1_rel (0, 0) (1, 0)
  have e2 := distC1_rel (1, 0) (2, 0)
  unfold phiR at e1 e2
  simp only [pathCost]
  rw [e1, e2]
  norm_num [dqC1, lonQ1, weather_factor, swhC1R, swhC1Q, zeroField]
  ring

/-- Cost of the storm-avoiding detour over the pole row in the C1
configuration: two meridian edges and one free polar edge. -/
theorem c1_cost_alt :
    pathCost lonC1 latC1 swhC1R zeroField 10 [(0, 0), (0, 1), (1, 1), (2, 0)] =
      degKm * 18 := by
  have e1 := distC1_rel (0, 0) (0, 1)
  have e2 := distC1_rel (0, 1) (1, 1)
  have e3 := distC1_rel (1, 1) (2, 0)
  unfold phiR at e1 e2 e3
  simp only [pathCost]
  rw [e1, e2, e3]
  norm_num [dqC1, lonQ1, weather_factor, swhC1R, swhC1Q, zeroField]
  ring

/-- C1 (refuted): on a 3x2 all-water grid (equator row and pole row) with a
severe storm cell (`swh = 1800`) on the middle equator node, tanker speed
10, start `(0,0)` and goal `(2,0)`, `a_star` returns the straight equator
path through the storm, of cost `18.2 * degKm`, although the detour over
the pole row is a valid path of strictly smaller cost `18 * degKm`: the
returned path is not minimum-cost.  (The inadmissible heuristic - the raw
haversine, not divided by speed - makes the polar frontier nodes look
worse than they are.) -/
theorem c1_counterexample :
    a_star (0, 0) (2, 0) lonC1 latC1 3 2 waterMask 10 swhC1R zeroField 9 =
        some [(0, 0), (1, 0), (2, 0)] ∧
      ValidPath 3 2 waterMask (0, 0) (2, 0) [(0, 0), (1, 0), (2, 0)] ∧
      ValidPath 3 2 waterMask (0, 0) (2, 0) [(0, 0), (0, 1), (1, 1), (2, 0)] ∧
      pathCost lonC1 latC1 swhC1R zeroField 10 [(0, 0), (0, 1), (1, 1), (2, 0)] <
        pathCost lonC1 latC1 swhC1R zeroField 10 [(0, 0), (1, 0), (2, 0)] := by
  refine ⟨?_, ?_, ?_, ?_⟩
  · have hlink : a_star (0, 0) (2, 0) lonC1 latC1 3 2 waterMask 10 swhC1R zeroField 9 =
        aStarGo PC1R 9 (aStarInit ((0, 0) : Node)) := rfl
    rw [hlink, aStarGo_rel degKm_pos PC1_rel 9 (aStarInit_rel degKm (0, 0))]
    exact c1_run_q
  · refine ⟨rfl, rfl, ?_, by decide⟩
    exact List.chain'_cons.2 ⟨by decide, List.chain'_cons.2 ⟨by decide,
      List.chain'_singleton _⟩⟩
  · refine ⟨rfl, rfl, ?_, by decide⟩
    exact List.chain'_cons.2 ⟨by decide, List.chain'_cons.2 ⟨by decide,
      List.chain'_cons.2 ⟨by decide, List.chain'_singleton _⟩⟩⟩
  · rw [c1_cost_bad, c1_cost_alt]
    nlinarith [degKm_pos]

/-! ### C2: frontier behaviour on g-score improvement -/

/-- Wave-height grid for the C2 counterexample: a severe storm cell on the
pole-row middle node `(i, j) = (1, 1)` (array entry `swh[1][1] = 1800`). -/
def swhC2Q : ℕ → ℕ → ℚ := fun j i => if j = 1 ∧ i = 1 then 1800 else 0

/-- The same storm grid over the reals. -/
noncomputable def swhC2R : ℕ → ℕ → ℝ := fun j i => ((swhC2Q j i : ℚ) : ℝ)

/-- Real-side A* parameters of the C2 counterexample: tanker speed 10,
start `(0,0)`, goal `(2,1)`, no land. -/
noncomputable def PC2R : AParams ℝ :=
  ⟨3, 2, waterMask, 10, swhC2R, zeroField,
    fun p q => haversine (lonC1 p.1) (latC1 p.2) (lonC1 q.1) (latC1 q.2), (0, 0), (2, 1)⟩

/-- Rational mirror of `PC2R`. -/
def PC2Q : AParams ℚ :=
  ⟨3, 2, waterMask, 10, swhC2Q, fun _ _ => 0, dqC1, (0, 0), (2, 1)⟩

theorem PC2_rel : PRel degKm PC2R PC2Q := by
  refine ⟨rfl, rfl, rfl, ?_, fun j i => rfl, fun j i => ?_, distC1_rel, rfl, rfl⟩
  · show (10 : ℝ) = ((10 : ℚ) : ℝ)
    norm_num
  · show zeroField j i = ((0 : ℚ) : ℝ)
    norm_num [zeroField]

/-- The real search state of the C2 run after `n` loop iterations (the
initial state if the loop has already returned). -/
noncomputable def c2State (n : ℕ) : AState ℝ :=
  match runSteps PC2R 9 n (aStarInit ((0, 0) : Node)) with
  | .cont s => s
  | .halt _ => aStarInit ((0, 0) : Node)

/-- Rational mirror of `c2State`. -/
def c2StateQ (n : ℕ) : AState ℚ :=
  match runSteps PC2Q 9 n (aStarInit ((0, 0) : Node)) with
  | .cont s => s
  | .halt _ => aStarInit ((0, 0) : Node)

theorem c2State_rel (n : ℕ) : SRel degKm (c2State n) (c2StateQ n) := by
  have h := runSteps_rel degKm_pos PC2_rel 9 n (aStarInit_rel degKm (0, 0))
  unfold c2State c2StateQ
  cases hR : runSteps PC2R 9 n (aStarInit ((0, 0) : Node)) with
  | halt r =>
    cases hQ : runSteps PC2Q 9 n (aStarInit ((0, 0) : Node)) with
    | halt r2 =>
      dsimp only
      exact aStarInit_rel degKm (0, 0)
    | cont s2 =>
      rw [hR, hQ] at h
      exact absurd h (by simp [StepRel])
  | cont s1 =>
    cases hQ : runSteps PC2Q 9 n (aStarInit ((0, 0) : Node)) with
    | halt r2 =>
      rw [hR, hQ] at h
      exact absurd h (by simp [StepRel])
    | cont s2 =>
      rw [hR, hQ] at h
      dsimp only
      exact h

set_option maxRecDepth 100000 in
/-- The C2 run evaluated exactly over the rationals: after one iteration
the frontier holds `(0,1)`, `(1,0)` and `(1,1)` (the latter with g = f =
1629); the second iteration pops `(0,1)` and improves `g(1,1)` to 9, but
the frontier keeps only the old entry for `(1,1)` - nothing is re-pushed. -/
theorem c2_run_q_facts :
    (c2StateQ 1).openSet =
        [(((9 : ℚ) : WithTop ℚ), (0, 1)), (((901 / 10 : ℚ) : WithTop ℚ), (1, 0)),
          (((1629 : ℚ) : WithTop ℚ), (1, 1))] ∧
      (c2StateQ 1).gScore (1, 1) = ((1629 : ℚ) : WithTop ℚ) ∧
      (c2StateQ 2).gScore (1, 1) = ((9 : ℚ) : WithTop ℚ) ∧
      (c2StateQ 2).openSet =
        [(((901 / 10 : ℚ) : WithTop ℚ), (1, 0)), (((1629 : ℚ) : WithTop ℚ), (1, 1))] :=
  of_decide_eq_true (by with_unfolding_all rfl)

theorem entMap_coe (a : ℚ) (n : Node) :
    entMap degKm ((a : WithTop ℚ), n) = (((degKm * (a : ℝ) : ℝ) : WithTop ℝ), n) := by
  unfold entMap
  rw [phiT_coe]
  rfl

/-- C2 (refuted): in the C2 storm configuration, after one loop iteration
the node `(1,1)` sits on the frontier with the stale values `g = f =
degKm*1629`; the second iteration improves its g-score to `degKm*9`
while it is still on the frontier, yet the frontier after that iteration
is exactly `[(degKm*901/10, (1,0)), (degKm*1629, (1,1))]`: no entry with
the new f value `degKm*9` is pushed, contradicting the claimed
push-again-with-new-f behaviour (line 168 of app.py pushes only nodes
absent from the queue, and no popped entry is ever skipped as stale). -/
theorem c2_counterexample :
    ((((degKm * 1629 : ℝ) : WithTop ℝ), ((1, 1) : Node)) ∈ (c2State 1).openSet) ∧
      (c2State 1).gScore (1, 1) = ((degKm * 1629 : ℝ) : WithTop ℝ) ∧
      (c2State 2).gScore (1, 1) = ((degKm * 9 : ℝ) : WithTop ℝ) ∧
      (c2State 2).openSet =
        [(((degKm * (901 / 10) : ℝ) : WithTop ℝ), (1, 0)),
          (((degKm * 1629 : ℝ) : WithTop ℝ), (1, 1))] ∧
      ((((degKm * 9 : ℝ) : WithTop ℝ), ((1, 1) : Node)) ∉ (c2State 2).openSet) := by
  obtain ⟨ho1, hg1, _⟩ := c2State_rel 1
  obtain ⟨ho2, hg2, _⟩ := c2State_rel 2
  obtain ⟨f1, f2, f3, f4⟩ := c2_run_q_facts
  have heq2 : (c2State 2).openSet =
      [(((degKm * (901 / 10) : ℝ) : WithTop ℝ), ((1, 0) : Node)),
        (((degKm * 1629 : ℝ) : WithTop ℝ), ((1, 1) : Node))] := by
    rw [ho2, f4]
    simp only [List.map_cons, List.map_nil, entMap_coe]
    norm_num
  refine ⟨?_, ?_, ?_, heq2, ?_⟩
  · rw [ho1, f1]
    simp only [List.map_cons, List.map_nil, entMap_coe]
    have hc : degKm * ((1629 : ℚ) : ℝ) = degKm * 1629 := by norm_num
    rw [hc]
    exact List.mem_cons_of_mem _ (List.mem_cons_of_mem _ (List.mem_cons_self _ _))
  · rw [hg1 (1, 1), f2, phiT_coe]
    unfold phiR
    norm_num
  · rw [hg2 (1, 1), f3, phiT_coe]
    unfold phiR
    norm_num
  · intro hmem
    rw [heq2] at hmem
    simp only [List.mem_cons, List.not_mem_nil, or_false] at hmem
    rcases hmem with h | h
    · exact absurd (congrArg Prod.snd h) (by decide)
    · have h1 := congrArg Prod.fst h
      simp only at h1
      rw [WithTop.coe_eq_coe] at h1
      nlinarith [degKm_pos]

/-- The state produced by the first C2 loop iteration, used to witness the
amended C2 theorem at a concrete instance. -/
def c2WitState : AState ℚ :=
  match aStarStep PC2Q 9 (aStarInit ((0, 0) : Node)) with
  | .cont s => s
  | .halt _ => aStarInit ((0, 0) : Node)

set_option maxRecDepth 100000 in
theorem c2_amended_witness :
    (c2WitState.openSet.map (fun e => e.2)).Nodup ∧
      ∀ e ∈ c2WitState.openSet,
        e ∈ (aStarInit ((0, 0) : Node) : AState ℚ).openSet ∨
          e.2 ∉ (aStarInit ((0, 0) : Node) : AState ℚ).openSet.map (fun x => x.2) :=
  c2_amended_no_repush PC2Q 9 (aStarInit ((0, 0) : Node)) c2WitState
    (by with_unfolding_all rfl) (by decide)

/-! ### C1 amended: whatever `a_star` returns is a valid grid path -/

/-- An in-bounds non-land node of the search parameters. -/
def okN {K : Type} [LinearOrderedField K] (P : AParams K) (n : Node) : Prop :=
  n.1 < P.W ∧ n.2 < P.H ∧ P.land n.2 n.1 = false

/-- Invariant of the main-loop state: g-scores are nonnegative, the start
keeps g-score 0 and no predecessor, every `came_from` link is an adjacent
in-bounds water edge whose tail is the start or itself linked, and every
frontier node is the start or linked. -/
def searchInv {K : Type} [LinearOrderedField K] (P : AParams K) (s : AState K) : Prop :=
  (∀ n, (0 : WithTop K) ≤ s.gScore n) ∧
    s.gScore P.start = 0 ∧
    s.cameFrom P.start = none ∧
    (∀ n m, s.cameFrom n = some m →
      adjacent m n ∧ okN P n ∧ okN P m ∧ (m = P.start ∨ s.cameFrom m ≠ none)) ∧
    (∀ e ∈ s.openSet, e.2 = P.start ∨ s.cameFrom e.2 ≠ none)

/-- Each of the eight neighbour offsets yields a node adjacent to the
current one (once the offset indices are nonnegative). -/
theorem dirs_adjacent (cur : Node) (d : ℤ × ℤ) (hd : d ∈ dirs)
    (h1 : 0 ≤ (cur.1 : ℤ) + d.1) (h2 : 0 ≤ (cur.2 : ℤ) + d.2) :
    adjacent cur (((cur.1 : ℤ) + d.1).toNat, ((cur.2 : ℤ) + d.2).toNat) := by
  obtain ⟨i, j⟩ := cur
  simp only [dirs, List.mem_cons, List.not_mem_nil, or_false] at hd
  unfold adjacent
  rcases hd with rfl | rfl | rfl | rfl | rfl | rfl | rfl | rfl <;>
    refine ⟨?_, ?_, ?_⟩ <;>
    simp only [ne_eq, Prod.mk.injEq, not_and] <;> omega

/-- One neighbour expansion preserves the search invariant (for
nonnegative distances, weather grids and a positive speed). -/
theorem expandDir_inv {K : Type} [LinearOrderedField K] (P : AParams K)
    (hsp : 0 < P.speed) (hdist : ∀ p q, 0 ≤ P.dist p q)
    (hswh : ∀ j i, 0 ≤ P.swh j i) (hws : ∀ j i, 0 ≤ P.ws j i)
    (cur : Node) (hcok : okN P cur) (s : AState K) (d : ℤ × ℤ) (hd : d ∈ dirs)
    (hInv : searchInv P s) (hcp : cur = P.start ∨ s.cameFrom cur ≠ none) :
    searchInv P (expandDir P cur s d) ∧
      (cur = P.start ∨ (expandDir P cur s d).cameFrom cur ≠ none) := by
  obtain ⟨hg0, hgs, hcs, hlink, hopen⟩ := hInv
  unfold expandDir
  by_cases hb : 0 ≤ (cur.1 : ℤ) + d.1 ∧ (cur.1 : ℤ) + d.1 < (P.W : ℤ) ∧
      0 ≤ (cur.2 : ℤ) + d.2 ∧ (cur.2 : ℤ) + d.2 < (P.H : ℤ) ∧
      P.land ((cur.2 : ℤ) + d.2).toNat ((cur.1 : ℤ) + d.1).toNat = false
  · rw [if_pos hb]
    dsimp only
    set nb : Node := (((cur.1 : ℤ) + d.1).toNat, ((cur.2 : ℤ) + d.2).toNat) with hnb
    have hadj : adjacent cur nb := dirs_adjacent cur d hd hb.1 hb.2.2.1
    have hnbok : okN P nb := by
      rw [hnb]
      exact ⟨by omega, by omega, hb.2.2.2.2⟩
    have hne : cur ≠ nb := hadj.1
    have hc0 : (0 : K) ≤
        P.dist cur nb * weather_factor (P.swh nb.2 nb.1) (P.ws nb.2 nb.1) / P.speed := by
      apply div_nonneg _ hsp.le
      apply mul_nonneg (hdist _ _)
      unfold weather_factor
      nlinarith [hswh nb.2 nb.1, hws nb.2 nb.1]
    have htent0 : (0 : WithTop K) ≤ s.gScore cur +
        ((P.dist cur nb * weather_factor (P.swh nb.2 nb.1) (P.ws nb.2 nb.1) / P.speed :
          K) : WithTop K) := by
      apply add_nonneg (hg0 cur)
      exact_mod_cast hc0
    by_cases hlt : s.gScore cur +
        ((P.dist cur nb * weather_factor (P.swh nb.2 nb.1) (P.ws nb.2 nb.1) / P.speed :
          K) : WithTop K) < s.gScore nb
    · rw [if_pos hlt]
      have hnbs : nb ≠ P.start := by
        intro h
        have hz : s.gScore nb = 0 := by
          rw [h]
          exact hgs
        rw [hz] at hlt
        exact absurd hlt (not_lt.2 htent0)
      refine ⟨⟨?_, ?_, ?_, ?_, ?_⟩, ?_⟩
      · intro n
        dsimp only
        by_cases hn : n = nb
        · rw [if_pos hn]
          exact htent0
        · rw [if_neg hn]
          exact hg0 n
      · dsimp only
        rw [if_neg (fun h => hnbs h.symm)]
        exact hgs
      · dsimp only
        rw [if_neg (fun h => hnbs h.symm)]
        exact hcs
      · intro n m hnm
        dsimp only at hnm ⊢
        by_cases hn : n = nb
        · rw [if_pos hn] at hnm
          have hm : m = cur := by
            injection hnm with h
            exact h.symm
          subst hm
          subst hn
          refine ⟨hadj, hnbok, hcok, ?_⟩
          rcases hcp with h | h
          · exact Or.inl h
          · refine Or.inr ?_
            rw [if_neg hne]
            exact h
        · rw [if_neg hn] at hnm
          obtain ⟨ha, hok1, hok2, hp⟩ := hlink n m hnm
          refine ⟨ha, hok1, hok2, ?_⟩
          rcases hp with h | h
          · exact Or.inl h
          · refine Or.inr ?_
            by_cases hm : m = nb
            · rw [if_pos hm]
              exact Option.noConfusion
            · rw [if_neg hm]
              exact h
      · intro e he
        dsimp only at he ⊢
        have hold : e ∈ s.openSet →
            e.2 = P.start ∨
              (if e.2 = nb then some cur else s.cameFrom e.2) ≠ none := by
          intro hmem
          rcases hopen e hmem with h | h
          · exact Or.inl h
          · refine Or.inr ?_
            by_cases hm : e.2 = nb
            · rw [if_pos hm]
              exact Option.noConfusion
            · rw [if_neg hm]
              exact h
        by_cases hm : nb ∈ s.openSet.map (fun e => e.2)
        · rw [if_pos hm] at he
          exact hold he
        · rw [if_neg hm] at he
          rcases List.mem_append.1 he with h | h
          · exact hold h
          · have he2 : e.2 = nb := by
              rw [List.mem_singleton.1 h]
            refine Or.inr ?_
            rw [he2, if_pos rfl]
            exact Option.noConfusion
      · rcases hcp with h | h
        · exact Or.inl h
        · refine Or.inr ?_
          dsimp only
          rw [if_neg hne]
          exact h
    · rw [if_neg hlt]
      exact ⟨⟨hg0, hgs, hcs, hlink, hopen⟩, hcp⟩
  · rw [if_neg hb]
    exact ⟨⟨hg0, hgs, hcs, hlink, hopen⟩, hcp⟩

/-- Folding the neighbour expansion over any sublist of the offsets
preserves the search invariant. -/
theorem foldExpand_inv {K : Type} [LinearOrderedField K] (P : AParams K)
    (hsp : 0 < P.speed) (hdist : ∀ p q, 0 ≤ P.dist p q)
    (hswh : ∀ j i, 0 ≤ P.swh j i) (hws : ∀ j i, 0 ≤ P.ws j i)
    (cur : Node) (hcok : okN P cur) :
    ∀ (l : List (ℤ × ℤ)), (∀ d ∈ l, d ∈ dirs) → ∀ (s : AState K), searchInv P s →
      (cur = P.start ∨ s.cameFrom cur ≠ none) →
      searchInv P (l.foldl (expandDir P cur) s) ∧
        (cur = P.start ∨ (l.foldl (expandDir P cur) s).cameFrom cur ≠ none) := by
  intro l
  induction l with
  | nil => intro _ s hI hp; exact ⟨hI, hp⟩
  | cons d ds ih =>
    intro hl s hI hp
    simp only [List.foldl_cons]
    have h := expandDir_inv P hsp hdist hswh hws cur hcok s d
      (hl d (List.mem_cons_self d ds)) hI hp
    exact ih (fun x hx => hl x (List.mem_cons_of_mem d hx)) _ h.1 h.2

/-- What a successful reconstruction returns: the accumulated suffix
prefixed by a chain of adjacent in-bounds water nodes that starts at the
start node and ends at the node the reconstruction began from. -/
theorem recon_spec (cameFrom : Node → Option Node) (start : Node) (ok : Node → Prop)
    (hlink : ∀ n m, cameFrom n = some m →
      adjacent m n ∧ ok n ∧ ok m ∧ (m = start ∨ cameFrom m ≠ none))
    (hsok : ok start) :
    ∀ (fuel : ℕ) (current : Node) (acc : List Node) (p : List Node),
      (current = start ∨ cameFrom current ≠ none) → ok current →
      reconstructPath cameFrom start fuel current acc = some p →
      ∃ t : List Node, p = (start :: t) ++ acc.reverse ∧
        (start :: t).getLast? = some current ∧ (start :: t).Chain' adjacent ∧
        ∀ n ∈ start :: t, ok n := by
  intro fuel
  induction fuel with
  | zero =>
    intro current acc p _ _ h
    exact Option.noConfusion h
  | succ f ih =>
    intro current acc p hcp hcok h
    unfold reconstructPath at h
    cases hcf : cameFrom current with
    | none =>
      rw [hcf] at h
      have hcs : current = start := by
        rcases hcp with hx | hx
        · exact hx
        · exact absurd hcf hx
      injection h with hp
      refine ⟨[], ?_, ?_, List.chain'_singleton _, ?_⟩
      · rw [← hp, List.reverse_append]
        rfl
      · rw [hcs]
        rfl
      · intro n hn
        rw [List.mem_singleton.1 hn]
        exact hsok
    | some m =>
      rw [hcf] at h
      dsimp only at h
      obtain ⟨hadj, hokc, hokm, hmp⟩ := hlink current m hcf
      obtain ⟨t, hp, hlast, hchain, hok⟩ := ih m (acc ++ [current]) p hmp hokm h
      refine ⟨t ++ [current], ?_, ?_, ?_, ?_⟩
      · rw [hp, List.reverse_append]
        simp [List.append_assoc]
      · rw [← List.cons_append]
        exact List.getLast?_concat _
      · rw [← List.cons_append]
        refine List.chain'_append.2 ⟨hchain, List.chain'_singleton _, ?_⟩
        intro x hx y hy
        rw [hlast, Option.mem_def] at hx
        rw [Option.mem_def] at hy
        injection hx with hx
        injection hy with hy
        rw [← hx, ← hy]
        exact hadj
      · intro n hn
        rw [← List.cons_append, List.mem_append] at hn
        rcases hn with h1 | h1
        · exact hok n h1
        · rw [List.mem_singleton.1 h1]
          exact hokc

/-- One main-loop iteration preserves the invariant, and whatever path it
returns on reaching the goal is a valid grid path. -/
theorem aStarStep_inv {K : Type} [LinearOrderedField K] (P : AParams K)
    (hsp : 0 < P.speed) (hdist : ∀ p q, 0 ≤ P.dist p q)
    (hswh : ∀ j i, 0 ≤ P.swh j i) (hws : ∀ j i, 0 ≤ P.ws j i)
    (hsok : okN P P.start) (rf : ℕ) (s : AState K) (hI : searchInv P s) :
    (∀ s', aStarStep P rf s = .cont s' → searchInv P s') ∧
      (∀ p, aStarStep P rf s = .halt (some p) →
        ValidPath P.W P.H P.land P.start P.goal p) := by
  obtain ⟨hg0, hgs, hcs, hlink, hopen⟩ := hI
  unfold aStarStep
  cases hmin : minExtract s.openSet with
  | none =>
    constructor
    · intro s' h
      exact StepRes.noConfusion h
    · intro p h
      injection h with h2
      exact Option.noConfusion h2
  | some pr =>
    obtain ⟨⟨f, cur⟩, rest⟩ := pr
    dsimp only
    have hcp : cur = P.start ∨ s.cameFrom cur ≠ none :=
      hopen _ (minExtract_sublist hmin).2
    have hcok : okN P cur := by
      rcases hcp with h | h
      · rw [h]
        exact hsok
      · cases hc : s.cameFrom cur with
        | none => exact absurd hc h
        | some m => exact (hlink cur m hc).2.1
    by_cases hgoal : cur = P.goal
    · rw [if_pos hgoal]
      constructor
      · intro s' h
        exact StepRes.noConfusion h
      · intro p h
        injection h with hrec
        obtain ⟨t, hp, hlast, hchain, hok⟩ :=
          recon_spec s.cameFrom P.start (okN P) hlink hsok rf cur [] p hcp hcok hrec
        simp only [List.reverse_nil, List.append_nil] at hp
        refine ⟨?_, ?_, ?_, ?_⟩
        · rw [hp]
          rfl
        · rw [hp, ← hgoal]
          exact hlast
        · rw [hp]
          exact hchain
        · intro n hn
          rw [hp] at hn
          exact hok n hn
    · rw [if_neg hgoal]
      constructor
      · intro s' h
        injection h with hs'
        rw [← hs']
        have hI' : searchInv P (⟨rest, s.gScore, s.cameFrom⟩ : AState K) := by
          refine ⟨hg0, hgs, hcs, hlink, ?_⟩
          intro e he
          exact hopen e ((minExtract_sublist hmin).1.subset he)
        exact (foldExpand_inv P hsp hdist hswh hws cur hcok dirs (fun d hd => hd)
          _ hI' hcp).1
      · intro p h
        exact StepRes.noConfusion h

/-- Running the main loop from an invariant state only ever returns valid
grid paths. -/
theorem aStarGo_inv {K : Type} [LinearOrderedField K] (P : AParams K)
    (hsp : 0 < P.speed) (hdist : ∀ p q, 0 ≤ P.dist p q)
    (hswh : ∀ j i, 0 ≤ P.swh j i) (hws : ∀ j i, 0 ≤ P.ws j i)
    (hsok : okN P P.start) :
    ∀ (fuel : ℕ) (s : AState K), searchInv P s →
      ∀ p, aStarGo P fuel s = some p → ValidPath P.W P.H P.land P.start P.goal p := by
  intro fuel
  induction fuel with
  | zero =>
    intro s _ p h
    exact Option.noConfusion h
  | succ f ih =>
    intro s hI p h
    unfold aStarGo at h
    have hstep := aStarStep_inv P hsp hdist hswh hws hsok (f + 1) s hI
    cases hres : aStarStep P (f + 1) s with
    | halt r =>
      rw [hres] at h
      dsimp only at h
      rw [h] at hres
      exact hstep.2 p hres
    | cont s' =>
      rw [hres] at h
      dsimp only at h
      exact ih s' (hstep.1 s' hres) p h

/-- The initial search state satisfies the invariant. -/
theorem aStarInit_inv {K : Type} [LinearOrderedField K] (P : AParams K) :
    searchInv P (aStarInit P.start) := by
  refine ⟨?_, ?_, rfl, ?_, ?_⟩
  · intro n
    show (0 : WithTop K) ≤ if n = P.start then 0 else ⊤
    by_cases h : n = P.start
    · rw [if_pos h]
    · rw [if_neg h]
      exact le_top
  · show (if P.start = P.start then (0 : WithTop K) else ⊤) = 0
    rw [if_pos rfl]
  · intro n m h
    exact Option.noConfusion h
  · intro e he
    refine Or.inl ?_
    rw [List.mem_singleton.1 he]

/-- C1 (amended): for a positive ship speed, nonnegative wave-height and
wind-speed grids, and an in-bounds non-land start node, whenever `a_star`
returns a path it is a valid route: it starts at the start node, ends at
the goal node, moves only between 8-adjacent grid nodes, and visits only
in-bounds non-land nodes.  (Minimality, as originally claimed, fails: see
the counterexample.) -/
theorem c1_amended_valid_path (start goal : Node) (lon lat : ℕ → ℝ) (W H : ℕ)
    (land : ℕ → ℕ → Bool) (speed : ℝ) (swh ws : ℕ → ℕ → ℝ) (fuel : ℕ) (p : List Node)
    (hspeed : 0 < speed) (hswh : ∀ j i, 0 ≤ swh j i) (hws : ∀ j i, 0 ≤ ws j i)
    (hsW : start.1 < W) (hsH : start.2 < H) (hsl : land start.2 start.1 = false)
    (hret : a_star start goal lon lat W H land speed swh ws fuel = some p) :
    ValidPath W H land start goal p := by
  unfold a_star at hret
  exact aStarGo_inv
    (⟨W, H, land, speed, swh, ws,
      fun a b => haversine (lon a.1) (lat a.2) (lon b.1) (lat b.2), start, goal⟩ :
      AParams ℝ)
    hspeed (fun a b => haversine_nonneg _ _ _ _) hswh hws ⟨hsW, hsH, hsl⟩
    fuel (aStarInit start) (aStarInit_inv _) p hret

/-- Witness for the amended C1 theorem: on a one-node all-water grid the
search immediately returns the single-node path, which is valid. -/
theorem c1_amended_witness :
    ValidPath 1 1 waterMask (0, 0) (0, 0) [(0, 0)] :=
  c1_amended_valid_path (0, 0) (0, 0) lonC1 latC1 1 1 waterMask 1 zeroField zeroField
    1 [(0, 0)] (by norm_num) (fun j i => le_refl 0) (fun j i => le_refl 0)
    (by norm_num) (by norm_num) rfl rfl
